import Mathlib

/-!
# HyperTunnel transfer subsystem: a shallow embedding with proofs

This file embeds the core of the HyperTunnel repository
(github.com/abrekhov/hypertunnel) in Lean 4 and proves or refutes the
specification claims about it.  Go strings are modelled as byte lists
(`List Nat`, every element `< 256`); Go slices as lists; fallible Go
functions as `Except`/`Option`.

Embedded components and their sources:
* the HTCP compact signal codec (`EncodeCompact` / `DecodeCompact`,
  pkg/datachannel, compact signal codec file);
* the ICE role negotiator (`DetermineICERole`,
  `DetermineICERoleWithDTLS`, pkg/datachannel/handlers.go);
* the transport orchestrator's role selection and sender loop
  (`Connection`, cmd/root.go);
* the confirmation prompt (`askForConfirmation`,
  pkg/datachannel/handlers.go);
* AES-256-CTR file encryption/decryption (`EncryptFile` in cmd,
  `decryptFile` in cmd/decrypt.go), with the AES block permutation and
  the passphrase hash kept abstract (they live in the Go standard
  library, outside the repository);
* transfer metadata validation (`Metadata.Validate`,
  `Metadata.SafeFilename`, pkg/transfer metadata file), together with
  byte-level models of Go's `filepath.Clean` and `filepath.Base`;
* the progress counter (`Progress.Update`, pkg/transfer/progress.go).
-/

namespace HyperTunnel

/-! ## Byte-string utilities -/

/-- Go `strings.Compare`: lexicographic byte-wise comparison. -/
def lexCompare : List Nat → List Nat → Ordering
  | [], [] => .eq
  | [], _ :: _ => .lt
  | _ :: _, [] => .gt
  | a :: as, b :: bs => if a < b then .lt else if b < a then .gt else lexCompare as bs

theorem lexCompare_self : ∀ a : List Nat, lexCompare a a = .eq := by
  intro a
  induction a with
  | nil => rfl
  | cons x xs ih => simp [lexCompare, ih]

theorem lexCompare_eq_iff : ∀ a b : List Nat, lexCompare a b = .eq ↔ a = b := by
  intro a
  induction a with
  | nil => intro b; cases b <;> simp [lexCompare]
  | cons x xs ih =>
    intro b
    cases b with
    | nil => simp [lexCompare]
    | cons y ys =>
      by_cases hxy : x < y
      · simp [lexCompare, hxy]
        omega
      · by_cases hyx : y < x
        · simp [lexCompare, hxy, hyx]
          omega
        · have hxy' : x = y := by omega
          simp [lexCompare, hxy, hyx, hxy', ih]

theorem lexCompare_swap_gt : ∀ a b : List Nat,
    lexCompare a b = .gt ↔ lexCompare b a = .lt := by
  intro a
  induction a with
  | nil => intro b; cases b <;> simp [lexCompare]
  | cons x xs ih =>
    intro b
    cases b with
    | nil => simp [lexCompare]
    | cons y ys =>
      by_cases hxy : x < y
      · have hyx : ¬ y < x := by omega
        simp [lexCompare, hxy, hyx]
      · by_cases hyx : y < x
        · simp [lexCompare, hxy, hyx]
        · simp [lexCompare, hxy, hyx, ih]

/-- Big-endian encoding of `n` into `k` bytes (`binary.BigEndian`). -/
def natToBE : Nat → Nat → List Nat
  | 0, _ => []
  | k + 1, n => natToBE k (n / 256) ++ [n % 256]

/-- Big-endian decoding of a byte list (`binary.BigEndian.UintNN`). -/
def beToNat (bs : List Nat) : Nat := bs.foldl (fun acc b => acc * 256 + b) 0

theorem natToBE_length : ∀ k n, (natToBE k n).length = k := by
  intro k
  induction k with
  | zero => intro n; rfl
  | succ k ih => intro n; simp [natToBE, ih]

theorem natToBE_lt : ∀ k n, ∀ b ∈ natToBE k n, b < 256 := by
  intro k
  induction k with
  | zero => intro n b hb; simp [natToBE] at hb
  | succ k ih =>
    intro n b hb
    simp only [natToBE, List.mem_append, List.mem_singleton] at hb
    rcases hb with hb | hb
    · exact ih _ b hb
    · omega

theorem beToNat_append_single (bs : List Nat) (b : Nat) :
    beToNat (bs ++ [b]) = beToNat bs * 256 + b := by
  simp [beToNat, List.foldl_append]

theorem beToNat_natToBE : ∀ k n, n < 256 ^ k → beToNat (natToBE k n) = n := by
  intro k
  induction k with
  | zero => intro n hn; interval_cases n; rfl
  | succ k ih =>
    intro n hn
    have hdiv : n / 256 < 256 ^ k := by
      have : 256 ^ (k + 1) = 256 ^ k * 256 := by ring
      omega
    rw [natToBE, beToNat_append_single, ih _ hdiv]
    omega

/-! ## ICE / DTLS data model (pion/webrtc types used by the repository) -/

/-- pion `webrtc.ICEProtocol` (int enum: unknown 0, UDP 1, TCP 2). -/
inductive ICEProtocol
  | unknown
  | udp
  | tcp
deriving DecidableEq

/-- pion `webrtc.ICECandidateType` (int enum: unknown 0, then host,
srflx, prflx, relay). -/
inductive ICECandidateType
  | unknown
  | host
  | srflx
  | prflx
  | relay
deriving DecidableEq

/-- pion `webrtc.ICERole`. -/
inductive ICERole
  | controlling
  | controlled
deriving DecidableEq

/-- pion `webrtc.ICEParameters` (fields used by the repository). -/
structure ICEParameters where
  usernameFragment : List Nat
  password : List Nat
  iceLite : Bool
deriving DecidableEq

/-- pion `webrtc.ICECandidate` (exported fields the codec serialises or
the decoder assigns; the spec's data model in §3). -/
structure ICECandidate where
  foundation : List Nat
  priority : Nat
  address : List Nat
  protocol : ICEProtocol
  port : Nat
  typ : ICECandidateType
  component : Nat
  relatedAddress : List Nat
  relatedPort : Nat
deriving DecidableEq

/-- pion `webrtc.DTLSFingerprint`. -/
structure DTLSFingerprint where
  algorithm : List Nat
  value : List Nat
deriving DecidableEq

/-- pion `webrtc.DTLSParameters`; the DTLS role is a byte enum, kept as
a raw `Nat`, exactly as the codec treats it. -/
structure DTLSParameters where
  role : Nat
  fingerprints : List DTLSFingerprint
deriving DecidableEq

/-- pion `webrtc.SCTPCapabilities`. -/
structure SCTPCapabilities where
  maxMessageSize : Nat
deriving DecidableEq

/-- `Signal` from pkg/datachannel/signal.go. -/
structure Signal where
  iceCandidates : List ICECandidate
  iceParameters : ICEParameters
  dtlsParameters : DTLSParameters
  sctpCapabilities : SCTPCapabilities
deriving DecidableEq

/-! ## Role negotiator (pkg/datachannel/handlers.go) -/

/-- `DetermineICERole`: the peer with the lexicographically greater
ufrag becomes controlling; on less-or-equal it becomes controlled. -/
def DetermineICERole (localParams remoteParams : ICEParameters) : ICERole :=
  if lexCompare localParams.usernameFragment remoteParams.usernameFragment = .gt then
    .controlling
  else
    .controlled

/-- `DetermineICERoleWithDTLS`: ufrag comparison first; on equality fall
back to comparing the first DTLS fingerprint values; on a further tie
(or missing fingerprints) return controlled. -/
def DetermineICERoleWithDTLS (localParams remoteParams : ICEParameters)
    (localDTLS remoteDTLS : DTLSParameters) : ICERole :=
  match lexCompare localParams.usernameFragment remoteParams.usernameFragment with
  | .gt => .controlling
  | .lt => .controlled
  | .eq =>
    match localDTLS.fingerprints, remoteDTLS.fingerprints with
    | lf :: _, rf :: _ =>
      if lexCompare lf.value rf.value = .gt then .controlling else .controlled
    | _, _ => .controlled

/-! ## Transport orchestrator role selection and sender loop (cmd/root.go)

`Connection` in cmd/root.go computes the ICE role it passes to
`ice.Start` from the sender/receiver mode alone: it initialises the role
to controlled and overwrites it with controlling exactly when `isOffer`
(the `-f` flag was given).  The local and remote `Signal` values are in
scope at that point but are not consulted. -/

/-- The role `Connection` hands to `ice.Start` (cmd/root.go): fixed by
mode, ignoring both signals. -/
def connectionIceRole (isOffer : Bool) (_localSig _remoteSig : Signal) : ICERole :=
  if isOffer then .controlling else .controlled

/-- One observable step of the sender's `OnOpen` loop in cmd/root.go. -/
inductive SenderAction
  | sendChunk (chunk : List Nat)
  | waitSeconds (n : Nat)
  | closeChannel
deriving DecidableEq

/-- Successive reads of up to `b` bytes from a source holding `data`
(the sender's `r.Read(chunk)` loop with a 65534-byte buffer; each read
returns the next at-most-`b` bytes until EOF). -/
def chunkReads (b : Nat) (data : List Nat) : List (List Nat) :=
  if b = 0 then []
  else if data = [] then []
  else data.take b :: chunkReads b (data.drop b)
termination_by data.length
decreasing_by
  rename_i hb hd
  have h1 : 0 < b := Nat.pos_of_ne_zero hb
  have h2 : data.length ≠ 0 := fun h => hd (List.eq_nil_of_length_eq_zero h)
  simp only [List.length_drop]
  omega

/-- The sender's `OnOpen` handler (cmd/root.go, data-channel open
callback): send each read chunk; when the read returns an error (EOF)
wait 30 seconds and leave the loop.  The `channel.Close()` after the
loop is commented out in the source, so no close action is emitted. -/
def senderOnOpenActions (data : List Nat) : List SenderAction :=
  (chunkReads 65534 data).map .sendChunk ++ [.waitSeconds 30]

/-! ## Confirmation prompt (pkg/datachannel/handlers.go)

`askForConfirmation` reads lines with `reader.ReadString`; each returned
line carries its trailing newline, so the Go test `len(res) < 2` is
"the line content is empty".  We model the input as the list of line
contents (without the newline); running out of lines models the
`log.Fatal` on read error, returning no answer (`none`). -/

/-- Trim ASCII whitespace from both ends (Go `strings.TrimSpace` on the
ASCII inputs at hand) and lower-case ASCII letters (`strings.ToLower`). -/
def trimLower (line : List Nat) : List Nat :=
  let isSpace : Nat → Bool := fun c => c = 32 ∨ c = 9 ∨ c = 10 ∨ c = 13
  let trimmed := (((line.dropWhile isSpace).reverse.dropWhile isSpace).reverse)
  trimmed.map (fun c => if 65 ≤ c ∧ c ≤ 90 then c + 32 else c)

/-- The loop body of `askForConfirmation` with `tries` attempts left. -/
def askLoop : Nat → List (List Nat) → Option Bool
  | 0, _ => some false
  | _ + 1, [] => none
  | tries + 1, line :: rest =>
    -- `len(res) < 2`: the raw line is just "\n", i.e. the content is empty
    if line = [] then some true
    else
      let t := trimLower line
      if t = [121] ∨ t = [121, 101, 115] then some true      -- "y" / "yes"
      else if t = [110] ∨ t = [110, 111] then some false      -- "n" / "no"
      else askLoop tries rest

/-- `askForConfirmation` (refined version, handlers.go): three attempts,
empty line defaults to yes, exhausted attempts default to no. -/
def askForConfirmation (lines : List (List Nat)) : Option Bool :=
  askLoop 3 lines

/-! ## Progress counter (pkg/transfer/progress.go) -/

/-- Two's-complement wrap of an integer into the int64 range
(the semantics of Go's `atomic.AddInt64`). -/
def wrap64 (x : Int) : Int := (x + 2 ^ 63) % 2 ^ 64 - 2 ^ 63

/-- `x` is representable as an int64. -/
def valid64 (x : Int) : Prop := -(2 ^ 63) ≤ x ∧ x < 2 ^ 63

instance (x : Int) : Decidable (valid64 x) := by unfold valid64; infer_instance

/-- The progress tracker's mutable state (start time omitted: no claim
mentions it). -/
structure Progress where
  totalBytes : Int
  transferredBytes : Int
deriving DecidableEq

/-- `Progress.Update`: `atomic.AddInt64(&p.TransferredBytes, n)` — an
unconditional wrapping add, with no validation of `n`. -/
def Progress.Update (p : Progress) (bytesTransferred : Int) : Progress :=
  { p with transferredBytes := wrap64 (p.transferredBytes + bytesTransferred) }

/-! ## AES-256-CTR stream codec (cmd encrypt/decrypt commands)

`EncryptFile` and `decryptFile` drive `cipher.NewCTR(aes.NewCipher(key)), iv)`
from the Go standard library.  The AES block permutation and the
SHA-256 passphrase hash (`hashutils.FromKeyToAESKey`) are standard
library / leaf collaborators, so they are parameters here: `keyOf`
derives the key from the passphrase, `E key block` encrypts one
16-byte counter block.  The CTR keystream and the two chunked file
loops are translated from the commands themselves. -/

/-- The CTR-mode counter block `j` steps after `iv` (the IV incremented
as a 128-bit big-endian counter). -/
def ctrCounter (iv : List Nat) (j : Nat) : List Nat :=
  natToBE 16 ((beToNat iv + j) % 256 ^ 16)

/-- Byte `i` of the CTR keystream for key `key` and IV `iv`. -/
def ctrKs (E : List Nat → List Nat → List Nat) (key iv : List Nat) (i : Nat) : Nat :=
  (E key (ctrCounter iv (i / 16))).getD (i % 16) 0

/-- `stream.XORKeyStream` applied to `data` with the keystream starting
at position `pos`. -/
def xorWith (ks : Nat → Nat) : Nat → List Nat → List Nat
  | _, [] => []
  | pos, c :: cs => (c ^^^ ks pos) :: xorWith ks (pos + 1) cs

/-- XOR each chunk in sequence, advancing the keystream position by the
chunk length (the encrypt loop body applied to the reads). -/
def streamChunks (ks : Nat → Nat) : Nat → List (List Nat) → List Nat
  | _, [] => []
  | pos, c :: cs => xorWith ks pos c ++ streamChunks ks (pos + c.length) cs

/-- The decrypt loop of `decryptFile` (cmd/decrypt.go): read up to
`b` bytes, clamp the count to the remaining ciphertext length
(`if n > int(msgLen) { n = int(msgLen) }`), XOR and emit the clamped
prefix, and keep reading until EOF. -/
def decLoop (ks : Nat → Nat) (b : Nat) (pos : Nat) (data : List Nat) (msgLen : Nat) :
    List Nat :=
  if b = 0 then []
  else if data = [] then []
  else
    let n := min b data.length
    let n2 := min n msgLen
    xorWith ks pos (data.take n2) ++ decLoop ks b (pos + n2) (data.drop n) (msgLen - n2)
termination_by data.length
decreasing_by
  rename_i hb hd
  have h1 : 0 < b := Nat.pos_of_ne_zero hb
  have h2 : data.length ≠ 0 := fun h => hd (List.eq_nil_of_length_eq_zero h)
  simp only [List.length_drop]
  omega

inductive CryptoError
  | emptyKeyphrase
  | ioError
deriving DecidableEq

/-- `EncryptFile` (cmd encrypt command): reject an empty keyphrase,
XOR the input chunk-by-chunk with the CTR keystream, then append the
16-byte IV after the input is consumed. -/
def EncryptFile (keyOf : List Nat → List Nat) (E : List Nat → List Nat → List Nat)
    (keyphrase iv : List Nat) (bufferSize : Nat) (data : List Nat) :
    Except CryptoError (List Nat) :=
  if keyphrase = [] then .error .emptyKeyphrase
  else
    let ks := ctrKs E (keyOf keyphrase) iv
    .ok (streamChunks ks 0 (chunkReads bufferSize data) ++ iv)

/-- `decryptFile` (cmd/decrypt.go): reject an empty keyphrase, read the
IV from the last 16 bytes (`ReadAt(iv, fileSize-16)`, which fails on a
negative offset), then decrypt at most `fileSize - 16` bytes from the
start of the file. -/
def decryptFile (keyOf : List Nat → List Nat) (E : List Nat → List Nat → List Nat)
    (keyphrase : List Nat) (bufferSize : Nat) (file : List Nat) :
    Except CryptoError (List Nat) :=
  if keyphrase = [] then .error .emptyKeyphrase
  else if file.length < 16 then .error .ioError
  else
    let msgLen := file.length - 16
    let iv := (file.drop msgLen).take 16
    let ks := ctrKs E (keyOf keyphrase) iv
    .ok (decLoop ks bufferSize 0 file msgLen)

/-! ## Go path helpers (path/filepath, Unix rules), byte-level -/

/-- ASCII bytes of a literal (all literals used here are ASCII). -/
def strBytes (s : String) : List Nat := s.toList.map Char.toNat

/-- `filepath.Clean` on Unix: process the slash-separated elements,
dropping empty and dot elements and resolving dot-dot against the
stack; a rooted path keeps its leading slash and absorbs leading
dot-dot; an empty result becomes a single dot. -/
def cleanStep (rooted : Bool) (stack : List (List Nat)) (e : List Nat) :
    List (List Nat) :=
  if e = [] ∨ e = [46] then stack
  else if e = [46, 46] then
    match stack with
    | top :: rest => if top = [46, 46] then e :: top :: rest else rest
    | [] => if rooted then [] else [e]
  else e :: stack

/-- Join path elements with slashes. -/
def joinSlash : List (List Nat) → List Nat
  | [] => []
  | [e] => e
  | e :: es => e ++ 47 :: joinSlash es

def goClean (path : List Nat) : List Nat :=
  if path = [] then [46]
  else
    let rooted := path.headD 0 = 47
    let stack := (path.splitOn 47).foldl (cleanStep rooted) []
    let out := (if rooted then [47] else []) ++ joinSlash stack.reverse
    if out = [] then [46] else out

/-- `filepath.IsAbs` on Unix. -/
def goIsAbs (path : List Nat) : Bool := path.headD 0 = 47

/-- Drop trailing slashes (the first loop of `filepath.Base`). -/
def stripTrailingSlashes (p : List Nat) : List Nat :=
  (p.reverse.dropWhile (· = 47)).reverse

/-- The suffix after the last slash (`path[LastIndex(path, "/")+1:]`;
the whole string when there is no slash). -/
def afterLastSlash (p : List Nat) : List Nat :=
  (p.reverse.takeWhile (· ≠ 47)).reverse

/-- `filepath.Base` on Unix. -/
def goBase (path : List Nat) : List Nat :=
  if path = [] then [46]
  else
    let p1 := stripTrailingSlashes path
    let p2 := afterLastSlash p1
    if p2 = [] then [47] else p2

/-! ## Transfer metadata (pkg/transfer metadata file) -/

/-- `Metadata` (fields consulted by validation). -/
structure Metadata where
  filename : List Nat
  size : Int
  checksum : List Nat
  isDirectory : Bool
  isArchive : Bool
deriving DecidableEq

inductive ValidateError
  | emptyFilename
  | negativeSize
  | pathTraversal
  | absolutePath
  | backslashes
deriving DecidableEq

/-- `Metadata.Validate`: empty name, negative size, path traversal
(prefix dot-dot after cleaning, absolute after cleaning, any dot-dot
substring, leading slash), second byte a colon (drive letter), or any
backslash, in that order. -/
def Metadata.Validate (m : Metadata) : Except ValidateError Unit :=
  if m.filename = [] then .error .emptyFilename
  else if m.size < 0 then .error .negativeSize
  else if [46, 46] <+: goClean m.filename ∨ goIsAbs (goClean m.filename) = true
      ∨ [46, 46] <:+: m.filename ∨ [47] <+: m.filename then
    .error .pathTraversal
  else if 2 ≤ m.filename.length ∧ m.filename.getD 1 0 = 58 then
    .error .absolutePath
  else if 92 ∈ m.filename then
    .error .backslashes
  else .ok ()

/-- `Metadata.SafeFilename`: clean, turn backslashes into slashes, drop
a drive-letter prefix, take the base name, and fall back to the literal
"unnamed" for empty, dot, or dot-dot results. -/
def Metadata.SafeFilename (m : Metadata) : List Nat :=
  let clean := goClean m.filename
  let clean2 := clean.map (fun b => if b = 92 then 47 else b)
  let clean3 := if 2 ≤ clean2.length ∧ clean2.getD 1 0 = 58 then clean2.drop 2 else clean2
  let base := goBase clean3
  if base = [] ∨ base = [46] ∨ base = [46, 46] then strBytes "unnamed" else base

/-! ## Hex (encoding/hex) and base64 (encoding/base64, standard alphabet) -/

/-- `encoding/hex` digit value: 0-9, a-f, A-F. -/
def hexVal (c : Nat) : Option Nat :=
  if 48 ≤ c ∧ c ≤ 57 then some (c - 48)
  else if 97 ≤ c ∧ c ≤ 102 then some (c - 87)
  else if 65 ≤ c ∧ c ≤ 70 then some (c - 55)
  else none

/-- `hex.DecodeString`: strict pairs of hex digits; odd length or a bad
digit fails. -/
def hexDecode : List Nat → Option (List Nat)
  | [] => some []
  | [_] => none
  | c1 :: c2 :: rest => do
    let h ← hexVal c1
    let l ← hexVal c2
    let tail ← hexDecode rest
    some ((h * 16 + l) :: tail)

/-- Lowercase hex digit for a value below 16. -/
def hexDigitL (n : Nat) : Nat := if n < 10 then 48 + n else 87 + n

/-- `hex.EncodeToString` of one byte: two lowercase digits. -/
def byteHex (b : Nat) : List Nat := [hexDigitL (b / 16 % 16), hexDigitL (b % 16)]

/-- Join two-character groups with a colon (the decoder's
`strings.Join(fpParts, ":")` over the pairs of the hex string). -/
def joinColon : List (List Nat) → List Nat
  | [] => []
  | [p] => p
  | p :: ps => p ++ 58 :: joinColon ps

/-- The colon-separated lowercase hex rendering of a byte string —
exactly what `DecodeCompact` rebuilds for the fingerprint. -/
def fpColonHex (bs : List Nat) : List Nat := joinColon (bs.map byteHex)

/-- Standard base64 alphabet character for a 6-bit value. -/
def b64Char (n : Nat) : Nat :=
  if n < 26 then 65 + n
  else if n < 52 then 97 + (n - 26)
  else if n < 62 then 48 + (n - 52)
  else if n = 62 then 43
  else 47

/-- Standard base64 value of an alphabet character. -/
def b64Val (c : Nat) : Option Nat :=
  if 65 ≤ c ∧ c ≤ 90 then some (c - 65)
  else if 97 ≤ c ∧ c ≤ 122 then some (c - 97 + 26)
  else if 48 ≤ c ∧ c ≤ 57 then some (c - 48 + 52)
  else if c = 43 then some 62
  else if c = 47 then some 63
  else none

/-- `base64.StdEncoding.EncodeToString` over bytes, producing ASCII
codes (with `=` padding, code 61). -/
def base64Encode : List Nat → List Nat
  | [] => []
  | [b1] => [b64Char (b1 / 4), b64Char (b1 % 4 * 16), 61, 61]
  | [b1, b2] => [b64Char (b1 / 4), b64Char (b1 % 4 * 16 + b2 / 16), b64Char (b2 % 16 * 4), 61]
  | b1 :: b2 :: b3 :: rest =>
    b64Char (b1 / 4) :: b64Char (b1 % 4 * 16 + b2 / 16) ::
      b64Char (b2 % 16 * 4 + b3 / 64) :: b64Char (b3 % 64) :: base64Encode rest

/-- `base64.StdEncoding.DecodeString`: four-character quantums, padding
only in the final quantum. -/
def base64Decode : List Nat → Option (List Nat)
  | [] => some []
  | c1 :: c2 :: c3 :: c4 :: rest => do
    let v1 ← b64Val c1
    let v2 ← b64Val c2
    if c3 = 61 then
      if c4 = 61 ∧ rest = [] then some [v1 * 4 + v2 / 16] else none
    else do
      let v3 ← b64Val c3
      if c4 = 61 then
        if rest = [] then some [v1 * 4 + v2 / 16, v2 % 16 * 16 + v3 / 4] else none
      else do
        let v4 ← b64Val c4
        let tail ← base64Decode rest
        some ((v1 * 4 + v2 / 16) :: (v2 % 16 * 16 + v3 / 4) :: (v3 % 4 * 64 + v4) :: tail)
  | _ => none

/-! ## HTCP compact signal codec (pkg/datachannel, compact codec file) -/

/-- `stringToCandidateType`: srflx 1, prflx 2, relay 3, default 0. -/
def stringToCandidateType : ICECandidateType → Nat
  | .srflx => 1
  | .prflx => 2
  | .relay => 3
  | _ => 0

/-- `candidateTypeToString`: 1 srflx, 2 prflx, 3 relay, default host. -/
def candidateTypeToString (t : Nat) : ICECandidateType :=
  if t = 1 then .srflx
  else if t = 2 then .prflx
  else if t = 3 then .relay
  else .host

/-- `protocolToInt`: TCP 2, default (UDP) 1. -/
def protocolToInt (p : ICEProtocol) : Nat := if p = .tcp then 2 else 1

/-- `intToProtocol`: 2 TCP, default UDP. -/
def intToProtocol (p : Nat) : ICEProtocol := if p = 2 then .tcp else .udp

/-- Truncate a string to at most 255 bytes (the encoder's silent
truncation before each one-byte length prefix). -/
def trunc255 (s : List Nat) : List Nat := if s.length > 255 then s.take 255 else s

/-- `encodeCandidate`: length-prefixed foundation, 4-byte priority,
length-prefixed address, 2-byte port, packed type/protocol byte (type
in the high nibble), and for non-host types a length-prefixed related
address followed by a 2-byte related port when the address is
non-empty. -/
def encodeCandidate (c : ICECandidate) : List Nat :=
  let foundation := trunc255 c.foundation
  let addr := trunc255 c.address
  let candType := stringToCandidateType c.typ
  let proto := protocolToInt c.protocol
  foundation.length :: foundation
    ++ natToBE 4 c.priority
    ++ addr.length :: addr
    ++ natToBE 2 c.port
    ++ [candType * 16 + proto % 16]
    ++ (if candType ≠ 0 then
          let relAddr := trunc255 c.relatedAddress
          relAddr.length ::
            (if relAddr.length > 0 then relAddr ++ natToBE 2 c.relatedPort else [])
        else [])

/-- The encoder's fingerprint bytes: strip colons from the first
fingerprint value, hex-decode it (failure aborts the encoding),
right-pad with zeros to 32 bytes and keep exactly 32; with no
fingerprint present, 32 zero bytes. -/
def fingerprintBytes (fps : List DTLSFingerprint) : Option (List Nat) :=
  match fps with
  | [] => some (List.replicate 32 0)
  | fp :: _ => do
    let fpBytes ← hexDecode (fp.value.filter (· ≠ 58))
    let padded := if fpBytes.length < 32 then
        fpBytes ++ List.replicate (32 - fpBytes.length) 0
      else fpBytes
    some (padded.take 32)

/-- The byte buffer `EncodeCompact` builds before base64: magic 'H',
version 1, length-prefixed ufrag and password, DTLS role byte, 32
fingerprint bytes, candidate count (capped at 255), candidates. -/
def encodeCompactBytes (s : Signal) : Option (List Nat) := do
  let ufrag := trunc255 s.iceParameters.usernameFragment
  let pwd := trunc255 s.iceParameters.password
  let fpB ← fingerprintBytes s.dtlsParameters.fingerprints
  let numCandidates := min s.iceCandidates.length 255
  some (72 :: 1 :: ufrag.length :: ufrag
    ++ pwd.length :: pwd
    ++ s.dtlsParameters.role % 256 :: fpB
    ++ numCandidates :: ((s.iceCandidates.take numCandidates).map encodeCandidate).flatten)

/-- `EncodeCompact`: the byte buffer, base64-encoded. -/
def EncodeCompact (s : Signal) : Option (List Nat) :=
  (encodeCompactBytes s).map base64Encode

inductive DecodeError
  | base64Err
  | invalidMagic
  | unsupportedVersion
  | invalidSignal
deriving DecidableEq

/-- The Go pattern `if offset >= len(data) { return ErrInvalidSignal }`
followed by reading the byte `data[offset]` and advancing. -/
def readByte (rest : List Nat) : Except DecodeError (Nat × List Nat) :=
  match rest with
  | [] => .error .invalidSignal
  | b :: r => .ok (b, r)

/-- The Go pattern `if offset+n > len(data) { return ErrInvalidSignal }`
followed by slicing `data[offset : offset+n]` and advancing. -/
def readBytes (n : Nat) (rest : List Nat) : Except DecodeError (List Nat × List Nat) :=
  if n ≤ rest.length then .ok (rest.take n, rest.drop n) else .error .invalidSignal

/-- A one-byte length prefix followed by that many bytes (the Go
sequence used for ufrag, password, foundation and address). -/
def readPrefixed (rest : List Nat) : Except DecodeError (List Nat × List Nat) := do
  let (n, r) ← readByte rest
  readBytes n r

/-- `decodeCandidate`, consuming the remaining bytes.  Each helper call
mirrors the corresponding offset bounds check in the Go source:
length-prefixed foundation, 4-byte priority, length-prefixed address,
2-byte port, the packed type/protocol byte, and for non-host types a
length-prefixed related address with a 2-byte related port when the
length is positive. -/
def decodeCandidate (rest : List Nat) : Except DecodeError (ICECandidate × List Nat) := do
  let (foundation, r1) ← readPrefixed rest
  let (prB, r2) ← readBytes 4 r1
  let (address, r3) ← readPrefixed r2
  let (poB, r4) ← readBytes 2 r3
  let (packed, r5) ← readByte r4
  let candType := packed / 16 % 16
  let proto := packed % 16
  let c : ICECandidate :=
    { foundation := foundation, priority := beToNat prB, address := address,
      protocol := intToProtocol proto, port := beToNat poB,
      typ := candidateTypeToString candType, component := 1,
      relatedAddress := [], relatedPort := 0 }
  if candType ≠ 0 then do
    let (rLen, r6) ← readByte r5
    if rLen > 0 then
      if rLen + 2 ≤ r6.length then
        let c2 := { c with
          relatedAddress := r6.take rLen
          relatedPort := beToNat ((r6.drop rLen).take 2) }
        .ok (c2, (r6.drop rLen).drop 2)
      else .error .invalidSignal
    else .ok (c, r6)
  else .ok (c, r5)

/-- The decoder's candidate loop (`for i := 0; i < numCandidates`). -/
def decodeCandidatesFrom : Nat → List Nat → Except DecodeError (List ICECandidate × List Nat)
  | 0, rest => .ok ([], rest)
  | n + 1, rest => do
    let (c, r) ← decodeCandidate rest
    let (cs, r2) ← decodeCandidatesFrom n r
    .ok (c :: cs, r2)

/-- `DecodeCompact` after base64: magic and version checks, the 38-byte
minimum-size check, length-prefixed ufrag and password, role byte, 32
fingerprint bytes (re-rendered as colon-separated lowercase hex),
candidate count, candidates; ICE-Lite is set to false and the SCTP
max-message-size to 0. -/
def decodeCompactBytes (data : List Nat) : Except DecodeError Signal :=
  if data.length < 2 then .error .invalidSignal
  else if data.getD 0 0 ≠ 72 then .error .invalidMagic
  else if data.getD 1 0 ≠ 1 then .error .unsupportedVersion
  else if data.length < 38 then .error .invalidSignal
  else do
    let (ufrag, r1) ← readPrefixed (data.drop 2)
    let (pwd, r2) ← readPrefixed r1
    -- Go: `offset+1+fingerprintSize+1 > len(data)` guards role,
    -- fingerprint, and candidate count at once
    if 34 ≤ r2.length then
      let role := r2.getD 0 0
      let fpBytes := (r2.drop 1).take 32
      let numCand := r2.getD 33 0
      let r3 := r2.drop 34
      let (cands, _) ← decodeCandidatesFrom numCand r3
      .ok { iceCandidates := cands,
            iceParameters :=
              { usernameFragment := ufrag, password := pwd, iceLite := false },
            dtlsParameters :=
              { role := role,
                fingerprints :=
                  [{ algorithm := strBytes "sha-256", value := fpColonHex fpBytes }] },
            sctpCapabilities := { maxMessageSize := 0 } }
    else .error .invalidSignal

/-- `DecodeCompact`: base64-decode (its failure is a distinct,
non-HTCP error), then parse the byte buffer. -/
def DecodeCompact (encoded : List Nat) : Except DecodeError Signal :=
  match base64Decode encoded with
  | none => .error .base64Err
  | some data => decodeCompactBytes data

/-! ## Statement-level predicates -/

/-- Every entry is a byte value. -/
def bytesValid (l : List Nat) : Prop := ∀ x ∈ l, x < 256

instance (l : List Nat) : Decidable (bytesValid l) := by
  unfold bytesValid; infer_instance

/-- The well-formedness of one candidate under which the compact codec
is lossless: byte-valid strings of at most 255 bytes, in-range scalar
fields, component 1, a known candidate type and protocol, and related
address/port present only in the combinations the wire format can
express. -/
def wellFormedCandidate (c : ICECandidate) : Prop :=
  c.foundation.length ≤ 255 ∧ bytesValid c.foundation ∧
  c.address.length ≤ 255 ∧ bytesValid c.address ∧
  c.relatedAddress.length ≤ 255 ∧ bytesValid c.relatedAddress ∧
  c.priority < 256 ^ 4 ∧ c.port < 256 ^ 2 ∧ c.relatedPort < 256 ^ 2 ∧
  c.component = 1 ∧ c.typ ≠ .unknown ∧ c.protocol ≠ .unknown ∧
  (c.typ = .host → c.relatedAddress = [] ∧ c.relatedPort = 0) ∧
  (c.relatedAddress = [] → c.relatedPort = 0)

instance (c : ICECandidate) : Decidable (wellFormedCandidate c) := by
  unfold wellFormedCandidate; infer_instance

/-- The well-formedness of a signal under which the compact codec is
lossless. -/
def wellFormedSignal (s : Signal) : Prop :=
  s.iceParameters.usernameFragment.length ≤ 255 ∧
  bytesValid s.iceParameters.usernameFragment ∧
  s.iceParameters.password.length ≤ 255 ∧
  bytesValid s.iceParameters.password ∧
  s.iceParameters.iceLite = false ∧
  s.iceCandidates.length ≤ 255 ∧
  (∀ c ∈ s.iceCandidates, wellFormedCandidate c) ∧
  s.dtlsParameters.role < 256 ∧
  (∃ b, b.length = 32 ∧ bytesValid b ∧
    s.dtlsParameters.fingerprints
      = [{ algorithm := strBytes "sha-256", value := fpColonHex b }]) ∧
  s.sctpCapabilities.maxMessageSize = 0

/-- The prompt treats a line as no answer at all: non-empty, and after
trimming and lower-casing neither y/yes nor n/no. -/
def invalidAnswer (l : List Nat) : Prop :=
  l ≠ [] ∧ trimLower l ≠ [121] ∧ trimLower l ≠ [121, 101, 115] ∧
  trimLower l ≠ [110] ∧ trimLower l ≠ [110, 111]

instance (l : List Nat) : Decidable (invalidAnswer l) := by
  unfold invalidAnswer; infer_instance

/-! # Theorems -/

/-! ## C10 — Progress.Update performs no validation -/

theorem wrap64_eq_self (x : Int) (h : valid64 x) : wrap64 x = x := by
  unfold wrap64 valid64 at *
  have h64 : (2 : Int) ^ 64 = 18446744073709551616 := by norm_num
  have h63 : (2 : Int) ^ 63 = 9223372036854775808 := by norm_num
  rw [h64, h63] at *
  omega

/-- C10: `Progress.Update` validates nothing — for every int64 `n`
whose addition does not overflow, it adds exactly `n` to the
transferred-bytes counter, so the counter strictly decreases for
negative `n`; monotonicity holds only when the caller passes `n ≥ 0`. -/
theorem progress_update_adds_exactly (p : Progress) (n : Int)
    (h : valid64 (p.transferredBytes + n)) :
    (p.Update n).transferredBytes = p.transferredBytes + n ∧
    (n < 0 → (p.Update n).transferredBytes < p.transferredBytes) ∧
    (0 ≤ n → p.transferredBytes ≤ (p.Update n).transferredBytes) := by
  have hw : (p.Update n).transferredBytes = p.transferredBytes + n := by
    simp only [Progress.Update]
    exact wrap64_eq_self _ h
  refine ⟨hw, ?_, ?_⟩
  · intro hn; omega
  · intro hn; omega

theorem progress_update_adds_exactly_witness :
    valid64 ((5 : Int) + (-3)) ∧
    (Progress.Update { totalBytes := 10, transferredBytes := 5 } (-3)).transferredBytes
      = 5 + (-3) := by
  refine ⟨by decide, ?_⟩
  exact (progress_update_adds_exactly
    { totalBytes := 10, transferredBytes := 5 } (-3) (by decide)).1

/-! ## C2 — role negotiator anti-symmetry -/

/-- C2 counterexample: two distinct ICE parameter sets with equal
username fragments but different passwords, for which both directions
of `DetermineICERole` return Controlled, so neither call returns
Controlling — refuting anti-symmetry for distinct parameter sets. -/
theorem determineICERole_not_antisymmetric_on_equal_ufrags :
    ({ usernameFragment := [97], password := [120], iceLite := false } : ICEParameters)
        ≠ { usernameFragment := [97], password := [121], iceLite := false } ∧
    DetermineICERole
        { usernameFragment := [97], password := [120], iceLite := false }
        { usernameFragment := [97], password := [121], iceLite := false } = .controlled ∧
    DetermineICERole
        { usernameFragment := [97], password := [121], iceLite := false }
        { usernameFragment := [97], password := [120], iceLite := false } = .controlled := by
  refine ⟨by decide, ?_, ?_⟩ <;> rfl

/-- C2 amended: the negotiation is anti-symmetric (exactly one side
Controlling) whenever the username fragments differ; the DTLS variant
is additionally anti-symmetric when equal ufrags are broken by
different first fingerprint values; ties in both make both sides
Controlled. -/
theorem determineICERole_antisymmetric (A B : ICEParameters)
    (lD rD : DTLSParameters) :
    (A.usernameFragment ≠ B.usernameFragment →
      DetermineICERole A B ≠ DetermineICERole B A ∧
      (DetermineICERole A B = .controlling ↔ DetermineICERole B A = .controlled)) ∧
    (A.usernameFragment ≠ B.usernameFragment →
      DetermineICERoleWithDTLS A B lD rD ≠ DetermineICERoleWithDTLS B A rD lD) ∧
    (A.usernameFragment = B.usernameFragment →
      ∀ lf lrest rf rrest, lD.fingerprints = lf :: lrest → rD.fingerprints = rf :: rrest →
        lf.value ≠ rf.value →
        DetermineICERoleWithDTLS A B lD rD ≠ DetermineICERoleWithDTLS B A rD lD) := by
  refine ⟨?_, ?_, ?_⟩
  · intro hne
    have hneq : lexCompare A.usernameFragment B.usernameFragment ≠ .eq := by
      intro h; exact hne ((lexCompare_eq_iff _ _).1 h)
    cases hc : lexCompare A.usernameFragment B.usernameFragment with
    | eq => exact absurd hc hneq
    | gt =>
      have hba : lexCompare B.usernameFragment A.usernameFragment = .lt :=
        (lexCompare_swap_gt _ _).1 hc
      simp [DetermineICERole, hc, hba]
    | lt =>
      have hba : lexCompare B.usernameFragment A.usernameFragment = .gt :=
        (lexCompare_swap_gt _ _).2 hc
      simp [DetermineICERole, hc, hba]
  · intro hne
    have hneq : lexCompare A.usernameFragment B.usernameFragment ≠ .eq := by
      intro h; exact hne ((lexCompare_eq_iff _ _).1 h)
    cases hc : lexCompare A.usernameFragment B.usernameFragment with
    | eq => exact absurd hc hneq
    | gt =>
      have hba : lexCompare B.usernameFragment A.usernameFragment = .lt :=
        (lexCompare_swap_gt _ _).1 hc
      simp [DetermineICERoleWithDTLS, hc, hba]
    | lt =>
      have hba : lexCompare B.usernameFragment A.usernameFragment = .gt :=
        (lexCompare_swap_gt _ _).2 hc
      simp [DetermineICERoleWithDTLS, hc, hba]
  · intro heq lf lrest rf rrest hlf hrf hvne
    have hab : lexCompare A.usernameFragment B.usernameFragment = .eq := by
      rw [heq]; exact lexCompare_self _
    have hba : lexCompare B.usernameFragment A.usernameFragment = .eq := by
      rw [heq]; exact lexCompare_self _
    have hvneq : lexCompare lf.value rf.value ≠ .eq := by
      intro h; exact hvne ((lexCompare_eq_iff _ _).1 h)
    cases hv : lexCompare lf.value rf.value with
    | eq => exact absurd hv hvneq
    | gt =>
      have hv2 : lexCompare rf.value lf.value = .lt := (lexCompare_swap_gt _ _).1 hv
      simp [DetermineICERoleWithDTLS, hab, hba, hlf, hrf, hv, hv2]
    | lt =>
      have hv2 : lexCompare rf.value lf.value = .gt := (lexCompare_swap_gt _ _).2 hv
      simp [DetermineICERoleWithDTLS, hab, hba, hlf, hrf, hv, hv2]

theorem determineICERole_antisymmetric_witness :
    ([122] : List Nat) ≠ [97] ∧
    DetermineICERole
        { usernameFragment := [122], password := [], iceLite := false }
        { usernameFragment := [97], password := [], iceLite := false }
      ≠ DetermineICERole
        { usernameFragment := [97], password := [], iceLite := false }
        { usernameFragment := [122], password := [], iceLite := false } := by
  refine ⟨by decide, ?_⟩
  exact ((determineICERole_antisymmetric
    { usernameFragment := [122], password := [], iceLite := false }
    { usernameFragment := [97], password := [], iceLite := false }
    { role := 0, fingerprints := [] } { role := 0, fingerprints := [] }).1
    (by decide)).1

/-! ## C3 — Connection fixes the ICE role by mode -/

/-- C3 counterexample: `Connection` passes Controlling to `ice.Start`
for the sender even when the symmetric §4.7 negotiation on the very
signals in scope would yield Controlled (local ufrag "a" against remote
ufrag "z"), and vice versa for the receiver — the orchestrator does not
derive the role from the Signal parameters. -/
theorem connection_role_ignores_signals_counterexample :
    connectionIceRole true
        { iceCandidates := [],
          iceParameters := { usernameFragment := [97], password := [], iceLite := false },
          dtlsParameters := { role := 0, fingerprints := [] },
          sctpCapabilities := { maxMessageSize := 0 } }
        { iceCandidates := [],
          iceParameters := { usernameFragment := [122], password := [], iceLite := false },
          dtlsParameters := { role := 0, fingerprints := [] },
          sctpCapabilities := { maxMessageSize := 0 } }
      ≠ DetermineICERole
        { usernameFragment := [97], password := [], iceLite := false }
        { usernameFragment := [122], password := [], iceLite := false } ∧
    connectionIceRole false
        { iceCandidates := [],
          iceParameters := { usernameFragment := [122], password := [], iceLite := false },
          dtlsParameters := { role := 0, fingerprints := [] },
          sctpCapabilities := { maxMessageSize := 0 } }
        { iceCandidates := [],
          iceParameters := { usernameFragment := [97], password := [], iceLite := false },
          dtlsParameters := { role := 0, fingerprints := [] },
          sctpCapabilities := { maxMessageSize := 0 } }
      ≠ DetermineICERole
        { usernameFragment := [122], password := [], iceLite := false }
        { usernameFragment := [97], password := [], iceLite := false } := by
  constructor <;> decide

/-- C3 amended: before starting ICE the orchestrator fixes the role
from the sender/receiver mode alone — Controlling exactly when this
peer is the sender — and the role is invariant under every choice of
local and remote Signal. -/
theorem connectionIceRole_fixed_by_mode (isOffer : Bool) (ls rs ls2 rs2 : Signal) :
    connectionIceRole isOffer ls rs = connectionIceRole isOffer ls2 rs2 ∧
    (connectionIceRole isOffer ls rs = .controlling ↔ isOffer = true) := by
  cases isOffer <;> simp [connectionIceRole]

/-! ## C9 — confirmation prompt protocol -/

/-- C9: the confirmation prompt returns yes on an empty line or on
y/yes (case-insensitively, after trimming), no on n/no, consumes one of
its three attempts on any other line, and returns no when three
attempts yield no valid answer. -/
theorem askForConfirmation_protocol :
    (∀ l rest, l = [] ∨ trimLower l = [121] ∨ trimLower l = [121, 101, 115] →
        askForConfirmation (l :: rest) = some true) ∧
    (∀ l rest, l ≠ [] → trimLower l = [110] ∨ trimLower l = [110, 111] →
        askForConfirmation (l :: rest) = some false) ∧
    (∀ l rest, invalidAnswer l → askForConfirmation (l :: rest) = askLoop 2 rest) ∧
    (∀ l1 l2 l3 rest, invalidAnswer l1 → invalidAnswer l2 → invalidAnswer l3 →
        askForConfirmation (l1 :: l2 :: l3 :: rest) = some false) := by
  refine ⟨?_, ?_, ?_, ?_⟩
  · rintro l rest (h | h | h)
    · simp [askForConfirmation, askLoop, h]
    · by_cases hl : l = []
      · simp [askForConfirmation, askLoop, hl]
      · simp [askForConfirmation, askLoop, hl, h]
    · by_cases hl : l = []
      · simp [askForConfirmation, askLoop, hl]
      · simp [askForConfirmation, askLoop, hl, h]
  · rintro l rest hl (h | h)
    · have hy : trimLower l ≠ [121] := by rw [h]; decide
      have hyes : trimLower l ≠ [121, 101, 115] := by rw [h]; decide
      simp [askForConfirmation, askLoop, hl, hy, hyes, h]
    · have hy : trimLower l ≠ [121] := by rw [h]; decide
      have hyes : trimLower l ≠ [121, 101, 115] := by rw [h]; decide
      simp [askForConfirmation, askLoop, hl, hy, hyes, h]
  · rintro l rest ⟨hl, h1, h2, h3, h4⟩
    simp [askForConfirmation, askLoop, hl, h1, h2, h3, h4]
  · rintro l1 l2 l3 rest ⟨hl1, h11, h12, h13, h14⟩ ⟨hl2, h21, h22, h23, h24⟩
      ⟨hl3, h31, h32, h33, h34⟩
    simp [askForConfirmation, askLoop, hl1, h11, h12, h13, h14,
      hl2, h21, h22, h23, h24, hl3, h31, h32, h33, h34]

theorem askForConfirmation_protocol_witness :
    invalidAnswer [109] ∧
    askForConfirmation [[109], [109], [109]] = some false := by
  refine ⟨by decide, ?_⟩
  exact askForConfirmation_protocol.2.2.2 [109] [109] [109] []
    (by decide) (by decide) (by decide)

/-! ## C7 — the sender's end-of-file behaviour -/

theorem chunkReads_flatten (b : Nat) (hb : b ≠ 0) (data : List Nat) :
    (chunkReads b data).flatten = data := by
  have key : ∀ n (d : List Nat), d.length ≤ n → (chunkReads b d).flatten = d := by
    intro n
    induction n with
    | zero =>
      intro d h
      have hd : d = [] := List.eq_nil_of_length_eq_zero (Nat.le_zero.1 h)
      subst hd
      rw [chunkReads]
      simp [hb]
    | succ n ih =>
      intro d h
      rw [chunkReads]
      by_cases hd : d = []
      · simp [hb, hd]
      · have h1 : 0 < b := Nat.pos_of_ne_zero hb
        have h2 : d.length ≠ 0 := fun hz => hd (List.eq_nil_of_length_eq_zero hz)
        have hdrop : (d.drop b).length ≤ n := by
          simp only [List.length_drop]; omega
        simp only [hb, hd, if_false, List.flatten_cons, ih _ hdrop,
          List.take_append_drop]
  exact key data.length data le_rfl

theorem chunkReads_chunks (b : Nat) (hb : b ≠ 0) (data : List Nat) :
    ∀ c ∈ chunkReads b data, c ≠ [] ∧ c.length ≤ b := by
  have key : ∀ n (d : List Nat), d.length ≤ n →
      ∀ c ∈ chunkReads b d, c ≠ [] ∧ c.length ≤ b := by
    intro n
    induction n with
    | zero =>
      intro d h c hc
      have hd : d = [] := List.eq_nil_of_length_eq_zero (Nat.le_zero.1 h)
      subst hd
      rw [chunkReads] at hc
      simp [hb] at hc
    | succ n ih =>
      intro d h c hc
      rw [chunkReads] at hc
      by_cases hd : d = []
      · simp [hb, hd] at hc
      · have h1 : 0 < b := Nat.pos_of_ne_zero hb
        have h2 : d.length ≠ 0 := fun hz => hd (List.eq_nil_of_length_eq_zero hz)
        simp only [hb, hd, if_false, List.mem_cons] at hc
        rcases hc with hc | hc
        · subst hc
          constructor
          · intro hcontra
            have := congrArg List.length hcontra
            simp only [List.length_take, List.length_nil] at this
            omega
          · simp [List.length_take]
        · have hdrop : (d.drop b).length ≤ n := by
            simp only [List.length_drop]; omega
          exact ih _ hdrop c hc
  exact key data.length data le_rfl

/-- C7 counterexample: the sender's data-channel open handler never
emits a close of the channel — after EOF it only waits 30 seconds and
leaves the loop (`channel.Close()` is commented out in cmd/root.go) —
so the claim that it closes the channel and prints a byte/time summary
fails already on the empty source. -/
theorem sender_never_closes_counterexample :
    SenderAction.closeChannel ∉ senderOnOpenActions [] := by
  have h : chunkReads 65534 ([] : List Nat) = [] := by
    rw [chunkReads]; simp
  simp [senderOnOpenActions, h]

/-- C7 amended: on end-of-file the sender waits 30 seconds and stops
sending without closing the channel (the close call is commented out,
and no transfer summary is printed from the loop); before that it has
sent the whole source, in order, in non-empty chunks of at most 65534
bytes. -/
theorem senderOnOpen_eof_behaviour (data : List Nat) :
    SenderAction.closeChannel ∉ senderOnOpenActions data ∧
    SenderAction.waitSeconds 30 ∈ senderOnOpenActions data ∧
    ((senderOnOpenActions data).filterMap
        (fun a => match a with | .sendChunk c => some c | _ => none)).flatten = data ∧
    (∀ c, SenderAction.sendChunk c ∈ senderOnOpenActions data →
      c ≠ [] ∧ c.length ≤ 65534) := by
  refine ⟨?_, ?_, ?_, ?_⟩
  · intro hmem
    simp only [senderOnOpenActions, List.mem_append, List.mem_map,
      List.mem_singleton] at hmem
    rcases hmem with ⟨c, _, hc⟩ | hc <;> simp at hc
  · simp [senderOnOpenActions]
  · have hmap : ∀ l : List (List Nat),
        (l.map SenderAction.sendChunk).filterMap
          (fun a => match a with | .sendChunk c => some c | _ => none) = l := by
      intro l
      induction l with
      | nil => rfl
      | cons x xs ih => simp [List.filterMap_cons, ih]
    have hfm : (senderOnOpenActions data).filterMap
        (fun a => match a with | .sendChunk c => some c | _ => none)
        = chunkReads 65534 data := by
      simp only [senderOnOpenActions, List.filterMap_append, hmap]
      simp [List.filterMap_cons]
    rw [hfm]
    exact chunkReads_flatten 65534 (by decide) data
  · intro c hc
    simp only [senderOnOpenActions, List.mem_append, List.mem_map,
      List.mem_singleton] at hc
    rcases hc with ⟨c2, hc2, hceq⟩ | hc
    · have : c2 = c := by
        cases hceq; rfl
      subst this
      exact chunkReads_chunks 65534 (by decide) data c2 hc2
    · simp at hc

/-! ## C4 — AES-CTR round-trip and file layout -/

theorem xorWith_append (ks : Nat → Nat) (pos : Nat) (l1 l2 : List Nat) :
    xorWith ks pos (l1 ++ l2) = xorWith ks pos l1 ++ xorWith ks (pos + l1.length) l2 := by
  induction l1 generalizing pos with
  | nil => simp [xorWith]
  | cons x xs ih =>
    simp only [List.cons_append, xorWith, List.append_eq, ih, List.length_cons]
    have hp : pos + (xs.length + 1) = pos + 1 + xs.length := by omega
    rw [hp]

theorem xorWith_length (ks : Nat → Nat) (pos : Nat) (l : List Nat) :
    (xorWith ks pos l).length = l.length := by
  induction l generalizing pos with
  | nil => rfl
  | cons x xs ih => simp [xorWith, ih]

theorem xorWith_xorWith (ks : Nat → Nat) (pos : Nat) (l : List Nat) :
    xorWith ks pos (xorWith ks pos l) = l := by
  induction l generalizing pos with
  | nil => rfl
  | cons x xs ih =>
    simp only [xorWith, ih, List.cons.injEq, and_true]
    rw [Nat.xor_assoc, Nat.xor_self, Nat.xor_zero]

theorem streamChunks_chunkReads (ks : Nat → Nat) (b : Nat) (hb : b ≠ 0)
    (data : List Nat) (pos : Nat) :
    streamChunks ks pos (chunkReads b data) = xorWith ks pos data := by
  have key : ∀ n (d : List Nat) (p : Nat), d.length ≤ n →
      streamChunks ks p (chunkReads b d) = xorWith ks p d := by
    intro n
    induction n with
    | zero =>
      intro d p h
      have hd : d = [] := List.eq_nil_of_length_eq_zero (Nat.le_zero.1 h)
      subst hd
      rw [chunkReads]
      simp [hb, streamChunks, xorWith]
    | succ n ih =>
      intro d p h
      rw [chunkReads]
      by_cases hd : d = []
      · simp [hb, hd, streamChunks, xorWith]
      · have h1 : 0 < b := Nat.pos_of_ne_zero hb
        have h2 : d.length ≠ 0 := fun hz => hd (List.eq_nil_of_length_eq_zero hz)
        have hdrop : (d.drop b).length ≤ n := by
          simp only [List.length_drop]; omega
        simp only [hb, hd, if_false, streamChunks, ih _ _ hdrop, List.length_take]
        conv_rhs => rw [← List.take_append_drop b d]
        rw [xorWith_append, List.length_take]
  exact key data.length data pos le_rfl

theorem decLoop_eq_xorWith (ks : Nat → Nat) (b : Nat) (hb : b ≠ 0) :
    ∀ (data : List Nat) (msgLen pos : Nat), msgLen ≤ data.length →
      decLoop ks b pos data msgLen = xorWith ks pos (data.take msgLen) := by
  have key : ∀ n (d : List Nat) (msgLen p : Nat), d.length ≤ n → msgLen ≤ d.length →
      decLoop ks b p d msgLen = xorWith ks p (d.take msgLen) := by
    intro n
    induction n with
    | zero =>
      intro d msgLen p h hm
      have hd : d = [] := List.eq_nil_of_length_eq_zero (Nat.le_zero.1 h)
      subst hd
      rw [decLoop]
      simp at hm
      simp [hb, hm, xorWith]
    | succ n ih =>
      intro d msgLen p h hm
      rw [decLoop]
      by_cases hd : d = []
      · subst hd
        simp at hm
        simp [hb, hm, xorWith]
      · have h1 : 0 < b := Nat.pos_of_ne_zero hb
        have h2 : d.length ≠ 0 := fun hz => hd (List.eq_nil_of_length_eq_zero hz)
        simp only [hb, hd, if_false]
        by_cases hcase : msgLen ≤ min b d.length
        · -- clamp takes effect or is tight: n2 = msgLen, remaining length is 0
          have hn2 : min (min b d.length) msgLen = msgLen := by omega
          have hdmin : (d.drop (min b d.length)).length ≤ n := by
            rw [List.length_drop]; omega
          rw [hn2, Nat.sub_self, ih _ 0 _ hdmin (by omega)]
          simp [xorWith]
        · -- chunk fully inside the ciphertext: n2 = n = min b d.length
          have hn2 : min (min b d.length) msgLen = min b d.length := by omega
          have hdlen2 : msgLen - min b d.length ≤ (d.drop (min b d.length)).length := by
            rw [List.length_drop]; omega
          have hdlen3 : (d.drop (min b d.length)).length ≤ n := by
            rw [List.length_drop]; omega
          rw [hn2, ih _ (msgLen - min b d.length) _ hdlen3 hdlen2]
          have htake : d.take msgLen
              = d.take (min b d.length)
                ++ (d.drop (min b d.length)).take (msgLen - min b d.length) := by
            rw [← List.take_add]
            congr 1
            omega
          conv_rhs => rw [htake]
          rw [xorWith_append, List.length_take]
          have hpos : min (min b d.length) d.length = min b d.length := by omega
          rw [hpos]
  intro data msgLen pos hm
  exact key data.length data msgLen pos le_rfl hm

/-- C4: for every byte string, every non-empty passphrase, and each
buffer size in 256, 1024, 65534, the encrypted file is ciphertext
followed by exactly the 16-byte IV, and decryption recovers the data,
processing exactly `file size - 16` bytes so the IV trailer is never
decrypted.  The AES block permutation `E` and the passphrase-to-key
hash `keyOf` are the standard-library collaborators, arbitrary here. -/
theorem encrypt_decrypt_roundTrip
    (keyOf : List Nat → List Nat) (E : List Nat → List Nat → List Nat)
    (keyphrase iv data : List Nat) (bufferSize : Nat)
    (hk : keyphrase ≠ []) (hiv : iv.length = 16)
    (hb : bufferSize = 256 ∨ bufferSize = 1024 ∨ bufferSize = 65534) :
    ∃ ciphertext,
      EncryptFile keyOf E keyphrase iv bufferSize data = .ok (ciphertext ++ iv) ∧
      ciphertext.length = data.length ∧
      (ciphertext ++ iv).length = data.length + 16 ∧
      decryptFile keyOf E keyphrase bufferSize (ciphertext ++ iv) = .ok data := by
  have hbne : bufferSize ≠ 0 := by rcases hb with h | h | h <;> omega
  set ks := ctrKs E (keyOf keyphrase) iv with hks
  refine ⟨xorWith ks 0 data, ?_, xorWith_length ks 0 data, ?_, ?_⟩
  · simp only [EncryptFile, hk, if_false]
    rw [streamChunks_chunkReads ks bufferSize hbne data 0]
  · simp [xorWith_length, hiv]
  · have hctlen : (xorWith ks 0 data).length = data.length := xorWith_length ks 0 data
    have hfl : (xorWith ks 0 data ++ iv).length = data.length + 16 := by
      simp [hctlen, hiv]
    simp only [decryptFile, hk, if_false]
    have hge : ¬ (xorWith ks 0 data ++ iv).length < 16 := by omega
    simp only [hge, if_false]
    have hmsg : (xorWith ks 0 data ++ iv).length - 16 = data.length := by omega
    rw [hmsg]
    have hdrop : (xorWith ks 0 data ++ iv).drop data.length = iv := by
      rw [← hctlen, List.drop_left]
    have hivtake : iv.take 16 = iv := by
      rw [← hiv]; exact List.take_length iv
    rw [hdrop, hivtake, ← hks]
    have hmle : data.length ≤ (xorWith ks 0 data ++ iv).length := by omega
    rw [decLoop_eq_xorWith ks bufferSize hbne _ _ 0 hmle]
    have htak : (xorWith ks 0 data ++ iv).take data.length = xorWith ks 0 data := by
      rw [← hctlen, List.take_left]
    rw [htak, xorWith_xorWith]

theorem encrypt_decrypt_roundTrip_witness :
    ([107] : List Nat) ≠ [] ∧ (List.replicate 16 0 : List Nat).length = 16 ∧
    ∃ ciphertext,
      EncryptFile (fun k => k) (fun _ blk => blk) [107] (List.replicate 16 0) 256 [1, 2, 3]
        = .ok (ciphertext ++ List.replicate 16 0) ∧
      ciphertext.length = ([1, 2, 3] : List Nat).length ∧
      (ciphertext ++ List.replicate 16 0).length = ([1, 2, 3] : List Nat).length + 16 ∧
      decryptFile (fun k => k) (fun _ blk => blk) [107] 256
          (ciphertext ++ List.replicate 16 0) = .ok [1, 2, 3] := by
  refine ⟨by decide, by decide, ?_⟩
  exact encrypt_decrypt_roundTrip (fun k => k) (fun _ blk => blk)
    [107] (List.replicate 16 0) [1, 2, 3] 256 (by decide) (by decide) (Or.inl rfl)

/-! ## C5 — filename validation and sanitisation -/

/-- `filepath.Base` returns a dot, a lone separator, or a non-empty
string without separators. -/
theorem goBase_cases (p : List Nat) :
    goBase p = [46] ∨ goBase p = [47] ∨
    (goBase p ≠ [] ∧ 47 ∉ goBase p) := by
  unfold goBase
  by_cases hp : p = []
  · simp [hp]
  · simp only [hp, if_false]
    by_cases h2 : afterLastSlash (stripTrailingSlashes p) = []
    · simp [h2]
    · right; right
      simp only [h2, if_false]
      refine ⟨h2, ?_⟩
      intro hmem
      unfold afterLastSlash at hmem
      rw [List.mem_reverse] at hmem
      have h47 := List.mem_takeWhile_imp hmem
      simp at h47

/-- C5 counterexample: for the filename consisting of a single slash,
`Validate` rejects it but `SafeFilename` returns the lone separator
`"/"` — which is not a single path component (it contains the
separator and names the base directory itself when joined), refuting
the claim that `SafeFilename` always returns a single path
component. -/
theorem safeFilename_slash_counterexample :
    Metadata.SafeFilename
        { filename := [47], size := 0, checksum := [],
          isDirectory := false, isArchive := false } = [47] ∧
    (47 : Nat) ∈ ([47] : List Nat) ∧
    Metadata.Validate
        { filename := [47], size := 0, checksum := [],
          isDirectory := false, isArchive := false } = .error .pathTraversal := by
  refine ⟨rfl, by decide, rfl⟩

/-- C5 amended: every filename containing a dot-dot substring, a
leading slash, a colon as its second byte (drive letter), or a
backslash fails `Validate`; and for every metadata, `SafeFilename`
returns a non-empty string that is either slash-free and distinct from
dot and dot-dot (so joining it to a base directory stays inside the
base), or — in the single degenerate case of a name that cleans to
slashes only — the lone separator, which joined to a base names the
base itself and still does not escape it. -/
theorem validate_safeFilename_safety (m : Metadata) :
    (([46, 46] <:+: m.filename ∨ [47] <+: m.filename ∨
        (2 ≤ m.filename.length ∧ m.filename.getD 1 0 = 58) ∨
        (92 : Nat) ∈ m.filename) →
      ∃ e, m.Validate = .error e) ∧
    m.SafeFilename ≠ [] ∧
    (m.SafeFilename = [47] ∨
      ((47 : Nat) ∉ m.SafeFilename ∧ m.SafeFilename ≠ [46] ∧ m.SafeFilename ≠ [46, 46])) := by
  refine ⟨?_, ?_⟩
  · intro htrig
    unfold Metadata.Validate
    split_ifs with h1 h2 h3 h4 h5
    · exact ⟨_, rfl⟩
    · exact ⟨_, rfl⟩
    · exact ⟨_, rfl⟩
    · exact ⟨_, rfl⟩
    · exact ⟨_, rfl⟩
    · exfalso
      rcases htrig with ht | ht | ht | ht
      · exact h3 (Or.inr (Or.inr (Or.inl ht)))
      · exact h3 (Or.inr (Or.inr (Or.inr ht)))
      · exact h4 ht
      · exact h5 ht
  · have hq : ∃ q, m.SafeFilename
        = (if goBase q = [] ∨ goBase q = [46] ∨ goBase q = [46, 46] then
            strBytes "unnamed" else goBase q) := ⟨_, rfl⟩
    obtain ⟨q, hqe⟩ := hq
    rw [hqe]
    by_cases hdeg : goBase q = [] ∨ goBase q = [46] ∨ goBase q = [46, 46]
    · simp only [hdeg, if_true]
      exact ⟨by decide, Or.inr ⟨by decide, by decide, by decide⟩⟩
    · simp only [hdeg, if_false]
      push_neg at hdeg
      obtain ⟨hne, hdot, hdd⟩ := hdeg
      rcases goBase_cases q with hc | hc | hc
      · exact absurd hc hdot
      · exact ⟨by rw [hc]; decide, Or.inl hc⟩
      · exact ⟨hc.1, Or.inr ⟨hc.2, hdot, hdd⟩⟩

theorem validate_safeFilename_safety_witness :
    ((92 : Nat) ∈ strBytes "a\\b") ∧
    (∃ e, Metadata.Validate
        { filename := strBytes "a\\b", size := 1, checksum := [],
          isDirectory := false, isArchive := false } = .error e) := by
  refine ⟨by decide, ?_⟩
  exact (validate_safeFilename_safety
    { filename := strBytes "a\\b", size := 1, checksum := [],
      isDirectory := false, isArchive := false }).1
    (Or.inr (Or.inr (Or.inr (by decide))))

/-! ## C6 — Validate and multi-component filenames -/

/-- C6 counterexample: the two-component relative path "a/b" passes
`Validate` (no error), although it contains the path separator and is
not a single path component. -/
theorem validate_accepts_separator_counterexample :
    Metadata.Validate
        { filename := strBytes "a/b", size := 100, checksum := [],
          isDirectory := false, isArchive := false } = .ok () ∧
    (47 : Nat) ∈ strBytes "a/b" := by
  refine ⟨rfl, by decide⟩

/-- C6 amended: `Validate` rejects the empty filename (with the
dedicated error), but it does not enforce the single-component
invariant: a multi-component relative path such as "a/b", free of
traversal, absolute, drive and backslash markers, is accepted. -/
theorem validate_empty_rejected_separator_accepted :
    (∀ m : Metadata, m.filename = [] → m.Validate = .error .emptyFilename) ∧
    Metadata.Validate
        { filename := strBytes "a/b", size := 100, checksum := [],
          isDirectory := false, isArchive := false } = .ok () := by
  constructor
  · intro m hm
    unfold Metadata.Validate
    simp [hm]
  · rfl

/-! ## Base64 and hex round-trip lemmas -/

theorem b64Val_b64Char : ∀ n, n < 64 → b64Val (b64Char n) = some n := by decide

theorem b64Char_ne_61 : ∀ n, n < 64 → b64Char n ≠ 61 := by decide

theorem base64_roundTrip (bs : List Nat) (hb : ∀ b ∈ bs, b < 256) :
    base64Decode (base64Encode bs) = some bs := by
  have key : ∀ n (l : List Nat), l.length ≤ n → (∀ b ∈ l, b < 256) →
      base64Decode (base64Encode l) = some l := by
    intro n
    induction n with
    | zero =>
      intro l h hl
      have : l = [] := List.eq_nil_of_length_eq_zero (Nat.le_zero.1 h)
      subst this
      rfl
    | succ n ih =>
      intro l h hl
      match l with
      | [] => rfl
      | [b1] =>
        have hb1 : b1 < 256 := hl b1 (by simp)
        have h1 : b1 / 4 < 64 := by omega
        have h2 : b1 % 4 * 16 < 64 := by omega
        simp only [base64Encode, base64Decode, b64Val_b64Char _ h1, b64Val_b64Char _ h2,
          Option.bind_eq_bind, Option.some_bind, if_pos rfl, and_self, if_true]
        congr 2
        omega
      | [b1, b2] =>
        have hb1 : b1 < 256 := hl b1 (by simp)
        have hb2 : b2 < 256 := hl b2 (by simp)
        have h1 : b1 / 4 < 64 := by omega
        have h2 : b1 % 4 * 16 + b2 / 16 < 64 := by omega
        have h3 : b2 % 16 * 4 < 64 := by omega
        have hne : b64Char (b2 % 16 * 4) ≠ 61 := b64Char_ne_61 _ h3
        simp only [base64Encode, base64Decode, b64Val_b64Char _ h1, b64Val_b64Char _ h2,
          b64Val_b64Char _ h3, Option.bind_eq_bind, Option.some_bind, hne, if_false,
          if_pos rfl, if_true]
        congr 2
        · omega
        · congr 1
          omega
      | b1 :: b2 :: b3 :: rest =>
        have hb1 : b1 < 256 := hl b1 (by simp)
        have hb2 : b2 < 256 := hl b2 (by simp)
        have hb3 : b3 < 256 := hl b3 (by simp)
        have h1 : b1 / 4 < 64 := by omega
        have h2 : b1 % 4 * 16 + b2 / 16 < 64 := by omega
        have h3 : b2 % 16 * 4 + b3 / 64 < 64 := by omega
        have h4 : b3 % 64 < 64 := by omega
        have hne3 : b64Char (b2 % 16 * 4 + b3 / 64) ≠ 61 := b64Char_ne_61 _ h3
        have hne4 : b64Char (b3 % 64) ≠ 61 := b64Char_ne_61 _ h4
        have hrest : rest.length ≤ n := by
          simp only [List.length_cons] at h
          omega
        have hrestb : ∀ b ∈ rest, b < 256 := fun b hb => hl b (by simp [hb])
        simp only [base64Encode, base64Decode, b64Val_b64Char _ h1, b64Val_b64Char _ h2,
          b64Val_b64Char _ h3, b64Val_b64Char _ h4, Option.bind_eq_bind, Option.some_bind,
          hne3, hne4, if_false, ih rest hrest hrestb]
        congr 2
        · omega
        · congr 1
          · omega
          · congr 1
            omega
  exact key bs.length bs le_rfl hb

theorem hexVal_hexDigitL : ∀ n, n < 16 → hexVal (hexDigitL n) = some n := by decide

theorem hexDigitL_ne_58 : ∀ n, n < 16 → hexDigitL n ≠ 58 := by decide

theorem byteHex_ne_58 (b : Nat) : ∀ c ∈ byteHex b, c ≠ 58 := by
  intro c hc
  simp only [byteHex, List.mem_cons, List.mem_singleton, List.not_mem_nil, or_false] at hc
  rcases hc with hc | hc
  · subst hc; exact hexDigitL_ne_58 _ (by omega)
  · subst hc; exact hexDigitL_ne_58 _ (by omega)

theorem joinColon_filter (parts : List (List Nat))
    (hp : ∀ p ∈ parts, ∀ c ∈ p, c ≠ 58) :
    (joinColon parts).filter (· ≠ 58) = parts.flatten := by
  induction parts with
  | nil => rfl
  | cons p ps ih =>
    cases ps with
    | nil =>
      simp only [joinColon, List.flatten_cons, List.flatten_nil, List.append_nil]
      rw [List.filter_eq_self]
      intro a ha
      simpa using hp p (by simp) a ha
    | cons p2 ps2 =>
      have hps : ∀ q ∈ p2 :: ps2, ∀ c ∈ q, c ≠ 58 := by
        intro q hq c hc
        exact hp q (by simp [hq]) c hc
      have hpfil : p.filter (· ≠ 58) = p := by
        rw [List.filter_eq_self]
        intro a ha
        simpa using hp p (by simp) a ha
      have hstep : joinColon (p :: p2 :: ps2) = p ++ 58 :: joinColon (p2 :: ps2) := rfl
      rw [hstep, List.filter_append, hpfil, List.flatten_cons]
      congr 1
      have h58 : ((58 : Nat) :: joinColon (p2 :: ps2)).filter (· ≠ 58)
          = (joinColon (p2 :: ps2)).filter (· ≠ 58) := by simp
      rw [h58, ih hps]

theorem hexDecode_byteHex_flatten (bs : List Nat) (hb : ∀ b ∈ bs, b < 256) :
    hexDecode ((bs.map byteHex).flatten) = some bs := by
  induction bs with
  | nil => rfl
  | cons b rest ih =>
    have hblt : b < 256 := hb b (by simp)
    have h1 : b / 16 % 16 < 16 := by omega
    have h2 : b % 16 < 16 := by omega
    have hrest : ∀ x ∈ rest, x < 256 := fun x hx => hb x (by simp [hx])
    simp only [List.map_cons, List.flatten_cons, byteHex, List.cons_append, List.nil_append,
      hexDecode, hexVal_hexDigitL _ h1, hexVal_hexDigitL _ h2, ih hrest,
      Option.bind_eq_bind, Option.some_bind]
    have h16 : b / 16 % 16 = b / 16 := Nat.mod_eq_of_lt (by omega)
    have harith : b / 16 % 16 * 16 + b % 16 = b := by
      rw [h16]
      omega
    rw [harith]
    simp only [List.append_eq, List.nil_append, ih hrest, Option.bind_eq_bind,
      Option.some_bind]

theorem fingerprintBytes_fpColonHex (alg b : List Nat)
    (hlen : b.length = 32) (hb : ∀ x ∈ b, x < 256) :
    fingerprintBytes [{ algorithm := alg, value := fpColonHex b }] = some b := by
  have hparts : ∀ p ∈ b.map byteHex, ∀ c ∈ p, c ≠ 58 := by
    intro p hp c hc
    simp only [List.mem_map] at hp
    obtain ⟨x, _, hx⟩ := hp
    subst hx
    exact byteHex_ne_58 x c hc
  simp only [fingerprintBytes, fpColonHex, joinColon_filter _ hparts,
    hexDecode_byteHex_flatten b hb, Option.bind_eq_bind, Option.some_bind]
  rw [if_neg (by omega)]
  simp only [Option.some.injEq]
  rw [← hlen]
  exact List.take_length b

/-! ## HTCP codec round-trip lemmas (C1) -/

theorem exceptBind_ok {α β : Type} (a : α) (f : α → Except DecodeError β) :
    (Except.ok a >>= f) = f a := rfl

theorem exceptBind_error {α β : Type} (e : DecodeError) (f : α → Except DecodeError β) :
    ((Except.error e : Except DecodeError α) >>= f) = .error e := rfl

theorem readByte_cons (b : Nat) (r : List Nat) : readByte (b :: r) = .ok (b, r) := rfl

theorem readBytes_spec (n : Nat) (l t : List Nat) (h : l.length = n) :
    readBytes n (l ++ t) = .ok (l, t) := by
  subst h
  unfold readBytes
  rw [if_pos (by simp), List.take_left, List.drop_left]

theorem readPrefixed_spec (l t : List Nat) :
    readPrefixed (l.length :: (l ++ t)) = .ok (l, t) := by
  unfold readPrefixed
  rw [readByte_cons, exceptBind_ok]
  exact readBytes_spec l.length l t rfl

theorem trunc255_eq {s : List Nat} (h : s.length ≤ 255) : trunc255 s = s := by
  unfold trunc255
  rw [if_neg (by omega)]

theorem candType_roundTrip (t : ICECandidateType) (h : t ≠ .unknown) :
    candidateTypeToString (stringToCandidateType t) = t := by
  cases t with
  | unknown => exact absurd rfl h
  | host => rfl
  | srflx => rfl
  | prflx => rfl
  | relay => rfl

theorem proto_roundTrip (p : ICEProtocol) (h : p ≠ .unknown) :
    intToProtocol (protocolToInt p) = p := by
  cases p with
  | unknown => exact absurd rfl h
  | udp => rfl
  | tcp => rfl

theorem stringToCandidateType_le (t : ICECandidateType) : stringToCandidateType t ≤ 3 := by
  cases t <;> simp [stringToCandidateType]

theorem protocolToInt_bounds (p : ICEProtocol) :
    1 ≤ protocolToInt p ∧ protocolToInt p ≤ 2 := by
  unfold protocolToInt
  split <;> simp

/-- Decoding inverts the candidate encoder on well-formed candidates,
leaving the remaining bytes untouched. -/
theorem decodeCandidate_encodeCandidate (c : ICECandidate) (rest : List Nat)
    (wf : wellFormedCandidate c) :
    decodeCandidate (encodeCandidate c ++ rest) = .ok (c, rest) := by
  obtain ⟨cf, cpr, ca, cproto, cport, ctyp, ccomp, cra, crp⟩ := c
  unfold wellFormedCandidate at wf
  dsimp only at wf
  obtain ⟨hf255, hfb, ha255, hab, hr255, hrb, hpr, hpo, hrp, hcomp, htyp, hproto,
    hhost, hremp⟩ := wf
  subst hcomp
  have hT3 : stringToCandidateType ctyp ≤ 3 := stringToCandidateType_le ctyp
  have hP12 := protocolToInt_bounds cproto
  have hctarith : (stringToCandidateType ctyp * 16 + protocolToInt cproto % 16) / 16 % 16
      = stringToCandidateType ctyp := by omega
  have hparith : (stringToCandidateType ctyp * 16 + protocolToInt cproto % 16) % 16
      = protocolToInt cproto := by omega
  have henc : encodeCandidate ⟨cf, cpr, ca, cproto, cport, ctyp, 1, cra, crp⟩ ++ rest
      = cf.length :: (cf ++ (natToBE 4 cpr ++ (ca.length :: (ca ++ (natToBE 2 cport ++
          ((stringToCandidateType ctyp * 16 + protocolToInt cproto % 16) ::
            ((if stringToCandidateType ctyp ≠ 0 then
                cra.length ::
                  (if cra.length > 0 then cra ++ natToBE 2 crp else [])
              else []) ++ rest))))))) := by
    simp only [encodeCandidate]
    try dsimp only
    rw [trunc255_eq hf255, trunc255_eq ha255, trunc255_eq hr255]
    simp only [List.cons_append, List.append_assoc, List.singleton_append,
      List.nil_append]
  rw [henc]
  unfold decodeCandidate
  rw [readPrefixed_spec, exceptBind_ok]
  try dsimp only
  rw [readBytes_spec 4 _ _ (natToBE_length 4 cpr), exceptBind_ok]
  try dsimp only
  rw [readPrefixed_spec, exceptBind_ok]
  try dsimp only
  rw [readBytes_spec 2 _ _ (natToBE_length 2 cport), exceptBind_ok]
  try dsimp only
  rw [readByte_cons, exceptBind_ok]
  try dsimp only
  rw [hctarith, hparith, beToNat_natToBE 4 cpr hpr, beToNat_natToBE 2 cport hpo,
    candType_roundTrip ctyp htyp, proto_roundTrip cproto hproto]
  by_cases hhostc : ctyp = .host
  · subst hhostc
    obtain ⟨hra0, hrp0⟩ := hhost rfl
    subst hra0
    subst hrp0
    rw [if_neg (by simp [stringToCandidateType])]
    simp [stringToCandidateType]
  · have hTne : stringToCandidateType ctyp ≠ 0 := by
      cases ctyp <;> simp_all [stringToCandidateType]
    rw [if_pos hTne, if_pos hTne]
    have h00 : ¬ ((0 : Nat) > 0) := by omega
    by_cases hra : cra = []
    · subst hra
      have hrp0 : crp = 0 := hremp rfl
      subst hrp0
      simp only [List.length_nil, List.cons_append]
      rw [if_neg h00]
      simp only [List.nil_append]
      rw [readByte_cons, exceptBind_ok]
      try dsimp only
      rw [if_neg h00]
    · have hralen : cra.length > 0 := by
        cases cra with
        | nil => exact absurd rfl hra
        | cons x xs => simp
      rw [if_pos hralen]
      simp only [List.cons_append, List.append_assoc]
      rw [readByte_cons, exceptBind_ok]
      try dsimp only
      rw [if_pos hralen]
      have hlen2 : cra.length + 2 ≤ (cra ++ (natToBE 2 crp ++ rest)).length := by
        simp [List.length_append, natToBE_length]
      rw [if_pos hlen2, List.take_left, List.drop_left,
        List.take_left' (natToBE_length 2 crp), List.drop_left' (natToBE_length 2 crp),
        beToNat_natToBE 2 crp hrp]

theorem decodeCandidatesFrom_encode (cs : List ICECandidate) (rest : List Nat)
    (wf : ∀ c ∈ cs, wellFormedCandidate c) :
    decodeCandidatesFrom cs.length ((cs.map encodeCandidate).flatten ++ rest)
      = .ok (cs, rest) := by
  induction cs with
  | nil => simp [decodeCandidatesFrom]
  | cons c cs ih =>
    simp only [List.map_cons, List.flatten_cons, List.length_cons, List.append_assoc]
    simp only [decodeCandidatesFrom]
    rw [decodeCandidate_encodeCandidate c _ (wf c (by simp)), exceptBind_ok]
    try dsimp only
    rw [ih (fun c2 hc2 => wf c2 (by simp [hc2])), exceptBind_ok]

theorem bytesValid_nil : bytesValid [] := by
  intro x hx
  simp at hx

theorem bytesValid_cons {b : Nat} {l : List Nat} (hb : b < 256) (h : bytesValid l) :
    bytesValid (b :: l) := by
  intro x hx
  rcases List.mem_cons.1 hx with hx | hx
  · omega
  · exact h x hx

theorem bytesValid_append {l1 l2 : List Nat} (h1 : bytesValid l1) (h2 : bytesValid l2) :
    bytesValid (l1 ++ l2) := by
  intro x hx
  rcases List.mem_append.1 hx with hx | hx
  · exact h1 x hx
  · exact h2 x hx

theorem encodeCandidate_bytesValid (c : ICECandidate) (wf : wellFormedCandidate c) :
    bytesValid (encodeCandidate c) := by
  obtain ⟨cf, cpr, ca, cproto, cport, ctyp, ccomp, cra, crp⟩ := c
  unfold wellFormedCandidate at wf
  dsimp only at wf
  obtain ⟨hf255, hfb, ha255, hab, hr255, hrb, hpr, hpo, hrp, hcomp, htyp, hproto,
    hhost, hremp⟩ := wf
  have hT3 : stringToCandidateType ctyp ≤ 3 := stringToCandidateType_le ctyp
  have hP12 := protocolToInt_bounds cproto
  simp only [encodeCandidate]
  rw [trunc255_eq hf255, trunc255_eq ha255, trunc255_eq hr255]
  refine bytesValid_append
    (bytesValid_append
      (bytesValid_append
        (bytesValid_append (bytesValid_append ?_ ?_) ?_) ?_) ?_) ?_
  · exact bytesValid_cons (by omega) hfb
  · exact natToBE_lt 4 cpr
  · exact bytesValid_cons (by omega) hab
  · exact natToBE_lt 2 cport
  · exact bytesValid_cons (by omega) bytesValid_nil
  · by_cases hT : stringToCandidateType ctyp ≠ 0
    · rw [if_pos hT]
      by_cases hL : cra.length > 0
      · rw [if_pos hL]
        exact bytesValid_cons (by omega) (bytesValid_append hrb (natToBE_lt 2 crp))
      · rw [if_neg hL]
        exact bytesValid_cons (by omega) bytesValid_nil
    · rw [if_neg hT]
      exact bytesValid_nil

/-- The encoder succeeds on a well-formed signal and its byte buffer
has the canonical prefix layout with valid byte values. -/
theorem encodeCompactBytes_shape (cands : List ICECandidate) (uf pw : List Nat)
    (role : Nat) (b : List Nat) (mms : Nat) (lite : Bool)
    (hu255 : uf.length ≤ 255) (hp255 : pw.length ≤ 255)
    (hclen : cands.length ≤ 255) (hb32 : b.length = 32) (hbv : bytesValid b) :
    encodeCompactBytes
      { iceCandidates := cands,
        iceParameters := { usernameFragment := uf, password := pw, iceLite := lite },
        dtlsParameters :=
          { role := role,
            fingerprints := [{ algorithm := strBytes "sha-256", value := fpColonHex b }] },
        sctpCapabilities := { maxMessageSize := mms } }
      = some (72 :: 1 :: uf.length :: (uf ++ (pw.length :: (pw ++ (role % 256 ::
          (b ++ (cands.length :: (cands.map encodeCandidate).flatten))))))) := by
  simp only [encodeCompactBytes]
  rw [trunc255_eq hu255, trunc255_eq hp255,
    fingerprintBytes_fpColonHex (strBytes "sha-256") b hb32 hbv]
  simp only [Option.bind_eq_bind, Option.some_bind, Nat.min_eq_left hclen,
    List.take_length, Option.some.injEq]
  simp only [List.cons_append, List.append_assoc, List.singleton_append,
    List.nil_append]

/-- Decoding inverts the compact byte encoder on well-formed signals. -/
theorem decodeCompactBytes_encodeCompactBytes (s : Signal) (wf : wellFormedSignal s) :
    ∃ bytes, encodeCompactBytes s = some bytes ∧ bytesValid bytes ∧
      decodeCompactBytes bytes = .ok s := by
  obtain ⟨cands, ⟨uf, pw, lite⟩, ⟨role, fps⟩, ⟨mms⟩⟩ := s
  unfold wellFormedSignal at wf
  dsimp only at wf
  obtain ⟨hu255, hub, hp255, hpb, hlite, hclen, hcwf, hrole, ⟨b, hb32, hbv, hfps⟩, hmms⟩ := wf
  subst hlite
  subst hfps
  subst hmms
  refine ⟨_, encodeCompactBytes_shape cands uf pw role b 0 false hu255 hp255 hclen hb32 hbv,
    ?_, ?_⟩
  · -- every emitted value is a byte
    intro x hx
    simp only [List.mem_cons, List.mem_append] at hx
    rcases hx with hx | hx
    · omega
    rcases hx with hx | hx
    · omega
    rcases hx with hx | hx
    · omega
    rcases hx with hx | hx
    · exact hub x hx
    rcases hx with hx | hx
    · omega
    rcases hx with hx | hx
    · exact hpb x hx
    rcases hx with hx | hx
    · omega
    rcases hx with hx | hx
    · exact hbv x hx
    rcases hx with hx | hx
    · omega
    · simp only [List.mem_flatten, List.mem_map] at hx
      obtain ⟨l, ⟨c, hc, hl⟩, hxl⟩ := hx
      subst hl
      exact encodeCandidate_bytesValid c (hcwf c hc) x hxl
  · -- decoding the canonical layout
    have hrm : role % 256 = role := Nat.mod_eq_of_lt hrole
    rw [hrm]
    unfold decodeCompactBytes
    have hlen : (72 :: 1 :: uf.length :: (uf ++ (pw.length :: (pw ++ (role ::
        (b ++ (cands.length :: (cands.map encodeCandidate).flatten))))))).length
        = 38 + uf.length + pw.length + ((cands.map encodeCandidate).flatten).length := by
      simp only [List.length_cons, List.length_append, hb32]
      omega
    rw [if_neg (by rw [hlen]; omega)]
    rw [if_neg (by simp [List.getD])]
    rw [if_neg (by simp [List.getD])]
    rw [if_neg (by rw [hlen]; omega)]
    have hdrop2 : (72 :: 1 :: uf.length :: (uf ++ (pw.length :: (pw ++ (role ::
        (b ++ (cands.length :: (cands.map encodeCandidate).flatten))))))).drop 2
        = uf.length :: (uf ++ (pw.length :: (pw ++ (role ::
            (b ++ (cands.length :: (cands.map encodeCandidate).flatten)))))) := rfl
    rw [hdrop2, readPrefixed_spec, exceptBind_ok]
    try dsimp only
    rw [readPrefixed_spec, exceptBind_ok]
    try dsimp only
    have hr2len : (role :: (b ++ (cands.length ::
        (cands.map encodeCandidate).flatten))).length
        = 34 + ((cands.map encodeCandidate).flatten).length := by
      simp only [List.length_cons, List.length_append, hb32]
      omega
    rw [if_pos (by rw [hr2len]; omega)]
    have hgd0 : (role :: (b ++ (cands.length ::
        (cands.map encodeCandidate).flatten))).getD 0 0 = role := rfl
    have hgd33 : (role :: (b ++ (cands.length ::
        (cands.map encodeCandidate).flatten))).getD 33 0 = cands.length := by
      have h1 : (role :: (b ++ (cands.length ::
          (cands.map encodeCandidate).flatten))).getD 33 0
          = (b ++ (cands.length :: (cands.map encodeCandidate).flatten)).getD 32 0 := rfl
      rw [h1, List.getD_append_right b _ 0 32 (by omega), hb32]
      rfl
    have hdrop1 : (role :: (b ++ (cands.length ::
        (cands.map encodeCandidate).flatten))).drop 1
        = b ++ (cands.length :: (cands.map encodeCandidate).flatten) := rfl
    have htake32 : (b ++ (cands.length ::
        (cands.map encodeCandidate).flatten)).take 32 = b := List.take_left' hb32
    have hdrop34 : (role :: (b ++ (cands.length ::
        (cands.map encodeCandidate).flatten))).drop 34
        = (cands.map encodeCandidate).flatten := by
      have h1 : (role :: (b ++ (cands.length ::
          (cands.map encodeCandidate).flatten))).drop 34
          = (b ++ (cands.length :: (cands.map encodeCandidate).flatten)).drop 33 := rfl
      rw [h1]
      have h2 : (33 : Nat) = b.length + 1 := by omega
      rw [h2, List.drop_append]
      rfl
    rw [hgd0, hgd33, hdrop1, htake32, hdrop34]
    have hflat : (cands.map encodeCandidate).flatten
        = (cands.map encodeCandidate).flatten ++ [] := by simp
    rw [hflat, decodeCandidatesFrom_encode cands [] hcwf, exceptBind_ok]

/-! ## C1 — HTCP round-trip -/

/-- A claim-well-formed signal whose SCTP max-message-size is 1. -/
def c1Sig : Signal :=
  { iceCandidates := [],
    iceParameters := { usernameFragment := [117, 102], password := [112, 119],
                       iceLite := false },
    dtlsParameters :=
      { role := 2,
        fingerprints :=
          [{ algorithm := strBytes "sha-256",
             value := fpColonHex (List.replicate 32 171) }] },
    sctpCapabilities := { maxMessageSize := 1 } }

/-- What the compact codec gives back for `c1Sig`: the same signal with
max-message-size reset to 0. -/
def c1SigDecoded : Signal :=
  { iceCandidates := [],
    iceParameters := { usernameFragment := [117, 102], password := [112, 119],
                       iceLite := false },
    dtlsParameters :=
      { role := 2,
        fingerprints :=
          [{ algorithm := strBytes "sha-256",
             value := fpColonHex (List.replicate 32 171) }] },
    sctpCapabilities := { maxMessageSize := 0 } }

/-- C1 counterexample: a signal satisfying every well-formedness
condition the claim lists (short ufrag/password, at most 255
candidates, a 32-byte sha-256 fingerprint, component 1 on all — zero —
candidates), whose SCTP max-message-size is 1; the compact round trip
returns a different signal, with max-message-size reset to 0, so
`DecodeCompact (EncodeCompact s)` is not `s`. -/
theorem compact_roundTrip_counterexample :
    c1Sig.iceParameters.usernameFragment.length ≤ 255 ∧
    c1Sig.iceParameters.password.length ≤ 255 ∧
    c1Sig.iceCandidates.length ≤ 255 ∧
    (∀ c ∈ c1Sig.iceCandidates, c.component = 1) ∧
    (∃ b, b.length = 32 ∧ c1Sig.dtlsParameters.fingerprints
        = [{ algorithm := strBytes "sha-256", value := fpColonHex b }]) ∧
    (EncodeCompact c1Sig).map DecodeCompact = some (.ok c1SigDecoded) ∧
    c1SigDecoded ≠ c1Sig := by
  refine ⟨by decide, by decide, by decide, ?_, ⟨List.replicate 32 171, by decide, rfl⟩,
    rfl, by decide⟩
  intro c hc
  simp [c1Sig] at hc

/-- C1 amended: the compact round trip is the identity on signals that,
beyond the claim's conditions (fields at most 255 bytes, at most 255
candidates, a 32-byte sha-256 fingerprint in the decoder's
colon-separated lowercase hex form, component 1), also carry an SCTP
max-message-size of 0, ICE-Lite false, known candidate types and
protocols, and related address/port only in the combinations the wire
format stores. -/
theorem encodeCompact_decodeCompact_roundTrip (s : Signal) (wf : wellFormedSignal s) :
    ∃ enc, EncodeCompact s = some enc ∧ DecodeCompact enc = .ok s := by
  obtain ⟨bytes, he, hv, hd⟩ := decodeCompactBytes_encodeCompactBytes s wf
  refine ⟨base64Encode bytes, ?_, ?_⟩
  · unfold EncodeCompact
    rw [he]
    rfl
  · simp only [DecodeCompact, base64_roundTrip bytes hv]
    exact hd

theorem encodeCompact_decodeCompact_roundTrip_witness :
    wellFormedSignal c1SigDecoded ∧
    ∃ enc, EncodeCompact c1SigDecoded = some enc ∧
      DecodeCompact enc = .ok c1SigDecoded := by
  have hwf : wellFormedSignal c1SigDecoded := by
    refine ⟨by decide, by decide, by decide, by decide, rfl, by decide, ?_,
      by decide, ⟨List.replicate 32 171, by decide, by decide, rfl⟩, rfl⟩
    intro c hc
    simp [c1SigDecoded] at hc
  exact ⟨hwf, encodeCompact_decodeCompact_roundTrip c1SigDecoded hwf⟩

/-! ## C8 — decoder obligations -/

theorem readByte_error (rest : List Nat) (e : DecodeError)
    (h : readByte rest = .error e) : e = .invalidSignal := by
  cases rest with
  | nil =>
    simp only [readByte, Except.error.injEq] at h
    exact h.symm
  | cons b r =>
    simp only [readByte] at h
    exact Except.noConfusion h

theorem readBytes_error (n : Nat) (rest : List Nat) (e : DecodeError)
    (h : readBytes n rest = .error e) : e = .invalidSignal := by
  unfold readBytes at h
  by_cases hc : n ≤ rest.length
  · rw [if_pos hc] at h
    exact Except.noConfusion h
  · rw [if_neg hc] at h
    injection h with h2
    exact h2.symm

theorem readPrefixed_error (rest : List Nat) (e : DecodeError)
    (h : readPrefixed rest = .error e) : e = .invalidSignal := by
  unfold readPrefixed at h
  cases hb : readByte rest with
  | error e2 =>
    rw [hb, exceptBind_error] at h
    injection h with h2
    rw [← h2]
    exact readByte_error rest e2 hb
  | ok p =>
    obtain ⟨n, r⟩ := p
    rw [hb, exceptBind_ok] at h
    dsimp only at h
    exact readBytes_error n r e h

/-- Every outcome of the candidate decoder: the invalid-signal error,
or a candidate with component 1. -/
theorem decodeCandidate_shape (rest : List Nat) :
    decodeCandidate rest = .error .invalidSignal ∨
    ∃ c r, decodeCandidate rest = .ok (c, r) ∧ c.component = 1 := by
  unfold decodeCandidate
  cases h1 : readPrefixed rest with
  | error e1 =>
    left
    rw [exceptBind_error, readPrefixed_error rest e1 h1]
  | ok p1 =>
    obtain ⟨f, r1⟩ := p1
    rw [exceptBind_ok]
    dsimp only
    cases h2 : readBytes 4 r1 with
    | error e2 =>
      left
      rw [exceptBind_error, readBytes_error 4 r1 e2 h2]
    | ok p2 =>
      obtain ⟨prB, r2⟩ := p2
      rw [exceptBind_ok]
      dsimp only
      cases h3 : readPrefixed r2 with
      | error e3 =>
        left
        rw [exceptBind_error, readPrefixed_error r2 e3 h3]
      | ok p3 =>
        obtain ⟨a, r3⟩ := p3
        rw [exceptBind_ok]
        dsimp only
        cases h4 : readBytes 2 r3 with
        | error e4 =>
          left
          rw [exceptBind_error, readBytes_error 2 r3 e4 h4]
        | ok p4 =>
          obtain ⟨poB, r4⟩ := p4
          rw [exceptBind_ok]
          dsimp only
          cases h5 : readByte r4 with
          | error e5 =>
            left
            rw [exceptBind_error, readByte_error r4 e5 h5]
          | ok p5 =>
            obtain ⟨packed, r5⟩ := p5
            rw [exceptBind_ok]
            dsimp only
            by_cases hT : packed / 16 % 16 ≠ 0
            · rw [if_pos hT]
              cases h6 : readByte r5 with
              | error e6 =>
                left
                rw [exceptBind_error, readByte_error r5 e6 h6]
              | ok p6 =>
                obtain ⟨rLen, r6⟩ := p6
                rw [exceptBind_ok]
                dsimp only
                by_cases hL : rLen > 0
                · rw [if_pos hL]
                  by_cases hB : rLen + 2 ≤ r6.length
                  · rw [if_pos hB]
                    right
                    exact ⟨_, _, rfl, rfl⟩
                  · rw [if_neg hB]
                    left
                    rfl
                · rw [if_neg hL]
                  right
                  exact ⟨_, _, rfl, rfl⟩
            · rw [if_neg hT]
              right
              exact ⟨_, _, rfl, rfl⟩

theorem decodeCandidatesFrom_shape : ∀ (n : Nat) (rest : List Nat),
    decodeCandidatesFrom n rest = .error .invalidSignal ∨
    ∃ cs r, decodeCandidatesFrom n rest = .ok (cs, r) ∧ ∀ c ∈ cs, c.component = 1 := by
  intro n
  induction n with
  | zero =>
    intro rest
    right
    exact ⟨[], rest, rfl, by simp⟩
  | succ n ih =>
    intro rest
    simp only [decodeCandidatesFrom]
    rcases decodeCandidate_shape rest with h | ⟨c, r, h, hcomp⟩
    · left
      rw [h, exceptBind_error]
    · rw [h, exceptBind_ok]
      dsimp only
      rcases ih r with h2 | ⟨cs, r2, h2, hcomp2⟩
      · left
        rw [h2, exceptBind_error]
      · right
        refine ⟨c :: cs, r2, ?_, ?_⟩
        · rw [h2, exceptBind_ok]
        · intro c2 hc2
          rcases List.mem_cons.1 hc2 with hc2 | hc2
          · rw [hc2]
            exact hcomp
          · exact hcomp2 c2 hc2

/-- Every outcome of the compact decoder on raw bytes: one of the three
named errors, or a signal with the decoder-imposed shape. -/
theorem decodeCompactBytes_shape (data : List Nat) :
    decodeCompactBytes data = .error .invalidSignal ∨
    decodeCompactBytes data = .error .invalidMagic ∨
    decodeCompactBytes data = .error .unsupportedVersion ∨
    ∃ s, decodeCompactBytes data = .ok s ∧
      s.sctpCapabilities.maxMessageSize = 0 ∧
      s.iceParameters.iceLite = false ∧
      (∀ c ∈ s.iceCandidates, c.component = 1) ∧
      ∃ b, b.length = 32 ∧
        s.dtlsParameters.fingerprints
          = [{ algorithm := strBytes "sha-256", value := fpColonHex b }] := by
  unfold decodeCompactBytes
  by_cases h1 : data.length < 2
  · left
    rw [if_pos h1]
  rw [if_neg h1]
  by_cases h2 : data.getD 0 0 ≠ 72
  · right; left
    rw [if_pos h2]
  rw [if_neg h2]
  by_cases h3 : data.getD 1 0 ≠ 1
  · right; right; left
    rw [if_pos h3]
  rw [if_neg h3]
  by_cases h4 : data.length < 38
  · left
    rw [if_pos h4]
  rw [if_neg h4]
  cases h5 : readPrefixed (data.drop 2) with
  | error e =>
    left
    rw [exceptBind_error, readPrefixed_error _ e h5]
  | ok p =>
    obtain ⟨ufrag, r1⟩ := p
    rw [exceptBind_ok]
    dsimp only
    cases h6 : readPrefixed r1 with
    | error e =>
      left
      rw [exceptBind_error, readPrefixed_error _ e h6]
    | ok p2 =>
      obtain ⟨pwd, r2⟩ := p2
      rw [exceptBind_ok]
      dsimp only
      by_cases h7 : 34 ≤ r2.length
      · rw [if_pos h7]
        rcases decodeCandidatesFrom_shape (r2.getD 33 0) (r2.drop 34) with
          h8 | ⟨cs, r3, h8, hcomp⟩
        · left
          rw [h8, exceptBind_error]
        · rw [h8, exceptBind_ok]
          dsimp only
          right; right; right
          refine ⟨_, rfl, rfl, rfl, hcomp, ⟨(r2.drop 1).take 32, ?_, rfl⟩⟩
          rw [List.length_take, List.length_drop]
          omega
      · left
        rw [if_neg h7]

/-- C8 counterexample: on the one-byte input 0x58 (an 'X', so not the
magic byte) the decoder returns InvalidSignal — the short-input check
fires before the magic check — not the InvalidMagic the claim
requires. -/
theorem decode_short_input_counterexample :
    decodeCompactBytes [88] = .error .invalidSignal ∧
    (88 : Nat) ≠ 72 ∧
    DecodeError.invalidSignal ≠ DecodeError.invalidMagic := by
  refine ⟨rfl, by decide, by decide⟩

/-- C8 amended: the byte-level decoder is total and never produces the
base64 error: inputs shorter than 2 bytes give InvalidSignal; otherwise
a wrong first byte gives InvalidMagic and a wrong version byte gives
UnsupportedVersion; every successful decode has SCTP max-message-size
0, ICE-Lite false, component 1 on every candidate, and a single sha-256
fingerprint rendered as the colon-separated lowercase hex of 32
bytes. -/
theorem decodeCompact_decoder_obligations (data : List Nat) :
    (data.length < 2 → decodeCompactBytes data = .error .invalidSignal) ∧
    (2 ≤ data.length → data.getD 0 0 ≠ 72 →
      decodeCompactBytes data = .error .invalidMagic) ∧
    (2 ≤ data.length → data.getD 0 0 = 72 → data.getD 1 0 ≠ 1 →
      decodeCompactBytes data = .error .unsupportedVersion) ∧
    decodeCompactBytes data ≠ .error .base64Err ∧
    (∀ s, decodeCompactBytes data = .ok s →
      s.sctpCapabilities.maxMessageSize = 0 ∧ s.iceParameters.iceLite = false ∧
      (∀ c ∈ s.iceCandidates, c.component = 1) ∧
      ∃ b, b.length = 32 ∧
        s.dtlsParameters.fingerprints
          = [{ algorithm := strBytes "sha-256", value := fpColonHex b }]) := by
  refine ⟨?_, ?_, ?_, ?_, ?_⟩
  · intro h
    unfold decodeCompactBytes
    rw [if_pos h]
  · intro h hm
    unfold decodeCompactBytes
    rw [if_neg (by omega), if_pos hm]
  · intro h hm hv
    unfold decodeCompactBytes
    rw [if_neg (by omega), if_neg (not_not_intro hm), if_pos hv]
  · rcases decodeCompactBytes_shape data with h | h | h | ⟨s, h, _⟩ <;> rw [h] <;> simp
  · intro s hs
    rcases decodeCompactBytes_shape data with h | h | h | ⟨s2, h, hprops⟩
    · rw [h] at hs
      exact Except.noConfusion hs
    · rw [h] at hs
      exact Except.noConfusion hs
    · rw [h] at hs
      exact Except.noConfusion hs
    · rw [h] at hs
      injection hs with hseq
      rw [← hseq]
      exact hprops

theorem decodeCompact_decoder_obligations_witness :
    ([] : List Nat).length < 2 ∧ decodeCompactBytes [] = .error .invalidSignal :=
  ⟨by decide, (decodeCompact_decoder_obligations []).1 (by decide)⟩

theorem validate_empty_rejected_witness :
    ({ filename := [], size := 0, checksum := [], isDirectory := false,
        isArchive := false } : Metadata).filename = [] ∧
    Metadata.Validate
        { filename := [], size := 0, checksum := [],
          isDirectory := false, isArchive := false } = .error .emptyFilename := by
  refine ⟨rfl, ?_⟩
  exact validate_empty_rejected_separator_accepted.1
    { filename := [], size := 0, checksum := [], isDirectory := false,
      isArchive := false } rfl

end HyperTunnel
